import Mathlib

/-!
The two `clip` scripts of diffengine.

A shallow embedding of `src/clip.js` (paragraph variant) and `src/diffs/clip.js`
(span variant).  Both scripts are written against jQuery; the part of jQuery they
use is modelled over an explicit document tree:

* an element handle is the path of child indices leading from the root to it;
* a jQuery object is the ordered list of the handles it matches;
* `text()` is the concatenation of the text nodes below an element, and
  `String.length` counts UTF-16 code units;
* `css`, `hide`, `show` and `addClass` rewrite the attributes of each matched
  element and leave everything else alone.
-/

namespace DiffEngine

/-! ## Document tree -/

/-- Handle of a node: the child indices on the way down from the root. -/
abbrev Path := List Nat

/-- What the scripts can observe or change on an element. -/
structure Attrs where
  tag : String
  classes : List String
  style : List (String × String)
  hidden : Bool
deriving DecidableEq

/-- A DOM node: a text node or an element with its child nodes. -/
inductive Node where
  | textNode (s : String)
  | elem (a : Attrs) (children : List Node)

/-- A jQuery object: the handles of the matched elements, in order. -/
abbrev JQ := List Path

/-- UTF-16 code units taken by one code point. -/
def utf16Units (c : Char) : Nat := if c.val < 0x10000 then 1 else 2

/-- JavaScript `s.length`: the number of UTF-16 code units of `s`. -/
def jsLength (s : String) : Nat := (s.data.map utf16Units).sum

mutual
/-- jQuery `text()` of one node: the text of all text nodes below it, in order. -/
def Node.text : Node → String
  | .textNode s => s
  | .elem _ cs => textAll cs
/-- Concatenated text of a list of sibling nodes. -/
def textAll : List Node → String
  | [] => ""
  | c :: cs => c.text ++ textAll cs
end

mutual
/-- Handles of the elements of the subtree that satisfy `pred`, in document order. -/
def Node.select (pred : Attrs → Bool) : Node → List Path
  | .textNode _ => []
  | .elem a cs => (if pred a then [[]] else []) ++ selectFrom pred 0 cs
/-- Selection inside the siblings `cs`, the first of which is child number `i`. -/
def selectFrom (pred : Attrs → Bool) (i : Nat) : List Node → List Path
  | [] => []
  | c :: cs => (c.select pred).map (i :: ·) ++ selectFrom pred (i + 1) cs
end

mutual
/-- Rewrite the attributes of every element, `g` being told the element's handle. -/
def Node.mapAttrs (g : Path → Attrs → Attrs) : Node → Node
  | .textNode s => .textNode s
  | .elem a cs => .elem (g [] a) (mapAttrsFrom g 0 cs)
/-- Attribute rewriting inside the siblings `cs`, the first of which is child number `i`. -/
def mapAttrsFrom (g : Path → Attrs → Attrs) (i : Nat) : List Node → List Node
  | [] => []
  | c :: cs => c.mapAttrs (fun p => g (i :: p)) :: mapAttrsFrom g (i + 1) cs
end

/-- The node a handle points to, if any. -/
def Node.getAt : Node → Path → Option Node
  | n, [] => some n
  | .textNode _, _ :: _ => none
  | .elem _ cs, i :: p =>
    match cs[i]? with
    | some c => c.getAt p
    | none => none

/-- Attributes of a node, when it is an element. -/
def Node.attrs? : Node → Option Attrs
  | .textNode _ => none
  | .elem a _ => some a

/-- Attributes of the element at a handle. -/
def attrsAt (d : Node) (p : Path) : Option Attrs := (d.getAt p).bind Node.attrs?

/-- Text content of the node at a handle. -/
def textAt (d : Node) (p : Path) : Option String := (d.getAt p).map Node.text

/-! ## The jQuery calls used by the scripts -/

/-- Selector matching.  The scripts use two selector forms only: a tag name
(`"p"`, `"ins"`, `"del"`) and a class name written `.name` (`".diff"`). -/
def matchesSel (sel : String) (a : Attrs) : Bool :=
  match sel.data with
  | '.' :: cls => decide (String.mk cls ∈ a.classes)
  | _ => a.tag == sel

/-- Call `$(sel)`: every element of the document matching `sel`, in document order. -/
def jq (d : Node) (sel : String) : JQ := d.select (matchesSel sel)

/-- Call `$(e)` for a variable holding an element or `null`: `$(null)` is empty. -/
def ofElem : Option Path → JQ
  | none => []
  | some e => [e]

/-- Indices of the element children among `cs` (first child number `i`) that
satisfy `pred`. -/
def childIdx (pred : Attrs → Bool) (i : Nat) : List Node → List Nat
  | [] => []
  | .textNode _ :: cs => childIdx pred (i + 1) cs
  | .elem a _ :: cs => if pred a then i :: childIdx pred (i + 1) cs else childIdx pred (i + 1) cs

/-- Element children of the element at `p`, optionally filtered by a selector. -/
def childrenAt (d : Node) (sel : Option String) (p : Path) : JQ :=
  match d.getAt p with
  | some (.elem _ cs) =>
    (childIdx (fun a => match sel with | none => true | some s => matchesSel s a) 0 cs).map
      (fun i => p ++ [i])
  | _ => []

/-- Call `.children(sel)` / `.children()`: the children of each matched element,
concatenated in the order of the matched elements. -/
def children (d : Node) (s : JQ) (sel : Option String) : JQ :=
  s.flatMap (childrenAt d sel)

/-- Handle of the parent element; the root element has none. -/
def parentPath : Path → Option Path
  | [] => none
  | i :: p => some (List.dropLast (i :: p))

/-- Call `.parent()`: the parent element of each matched element. -/
def parent (s : JQ) : JQ := s.filterMap parentPath

/-- Call `$(c).text()` for a single element `c`. -/
def textOf (d : Node) (c : Path) : String :=
  match d.getAt c with
  | some n => n.text
  | none => ""

/-- Apply `f` to the attributes of each matched element. -/
def update (s : JQ) (f : Attrs → Attrs) (d : Node) : Node :=
  d.mapAttrs (fun p a => if p ∈ s then f a else a)

/-- Set one property of an inline style. -/
def setProp (k v : String) : List (String × String) → List (String × String)
  | [] => [(k, v)]
  | (k', v') :: rest => if k' = k then (k, v) :: rest else (k', v') :: setProp k v rest

/-- Read one property of an inline style. -/
def getProp (k : String) : List (String × String) → Option String
  | [] => none
  | (k', v') :: rest => if k' = k then some v' else getProp k rest

/-- Call `.css({k: v})`. -/
def css (s : JQ) (k v : String) (d : Node) : Node :=
  update s (fun a => { a with style := setProp k v a.style }) d

/-- Call `.hide()`. -/
def hide (s : JQ) (d : Node) : Node := update s (fun a => { a with hidden := true }) d

/-- Call `.show()`. -/
def showEl (s : JQ) (d : Node) : Node := update s (fun a => { a with hidden := false }) d

/-- Attribute change made by `.addClass(c)`: the class is added unless present. -/
def addClassAttr (c : String) (a : Attrs) : Attrs :=
  { a with classes := if c ∈ a.classes then a.classes else a.classes ++ [c] }

/-- Text lengths of the direct children of a region that are `tag` elements, in
document order: the summands of the aggregate measure as the specification words it. -/
def directLengths (tag : String) : List Node → List Nat
  | [] => []
  | .textNode _ :: cs => directLengths tag cs
  | .elem a cs' :: cs =>
    if a.tag = tag then jsLength (Node.elem a cs').text :: directLengths tag cs
    else directLengths tag cs

/-! ## `src/clip.js`: the paragraph variant -/

namespace Clip

/-- Function `count(e, sel)`: the running total `length` over `$(e).children(sel)`. -/
def count (d : Node) (e : Path) (sel : String) : Int :=
  (children d [e] (some sel)).foldl (fun length c => length + (jsLength (textOf d c) : Int)) 0

/-- Function `changesLength(p)`. -/
def changesLength (d : Node) (p : Path) : Int :=
  count d p "del" + count d p "ins"

/-- One round of the `each` loop of `getParagraph` on the pair `(p, largest)`. -/
def step (d : Node) (st : Option Path × Int) (e : Path) : Option Path × Int :=
  let len := changesLength d e
  if len > st.2 then (some e, len) else st

/-- Function `getParagraph()`. -/
def getParagraph (d : Node) : JQ :=
  ofElem ((jq d "p").foldl (step d) (none, 0)).1

/-- Function `clip()` (the `console.log` call has no effect on the document). -/
def clip (d : Node) : Node :=
  let p := getParagraph d
  let d1 := css p "border" "thin solid black" d
  let d2 := hide (children d1 (jq d1 ".diff") none) d1
  let d3 := showEl p d2
  showEl (parent p) d3

/-- Net effect of the four calls of `clip` on the attributes `a` of the element with
handle `q`, for the winner `w` (a jQuery object) and the set `hidden` of children of
the diff containers. -/
def clipAttrs (w hidden : JQ) (q : Path) (a : Attrs) : Attrs :=
  let a1 := if q ∈ w then { a with style := setProp "border" "thin solid black" a.style } else a
  let a2 := if q ∈ hidden then { a1 with hidden := true } else a1
  let a3 := if q ∈ w then { a2 with hidden := false } else a2
  if q ∈ parent w then { a3 with hidden := false } else a3

end Clip

/-! ## `src/diffs/clip.js`: the span variant -/

namespace DiffsClip

/-- The page: the document, and the elements created by the script that are not
part of the document. -/
structure Page where
  doc : Node
  detached : List Node

/-- An element handle: in the document, or detached. -/
inductive Handle where
  | attached (p : Path)
  | detached (i : Nat)
deriving DecidableEq

/-- The node behind a handle. -/
def Page.node? (s : Page) : Handle → Option Node
  | .attached p => s.doc.getAt p
  | .detached i => s.detached[i]?

/-- Call `h.text()`. -/
def Page.text (s : Page) (h : Handle) : String :=
  match s.node? h with
  | some n => n.text
  | none => ""

/-- Attributes of the element behind a handle. -/
def Page.attrsOf (s : Page) (h : Handle) : Option Attrs := (s.node? h).bind Node.attrs?

/-- The element built by `$("<span></span>")`. -/
def emptySpan : Node := .elem ⟨"span", [], [], false⟩ []

/-- Call `$("<span></span>")`: a new empty span outside the document. -/
def Page.createSpan (s : Page) : Handle × Page :=
  (.detached s.detached.length, { s with detached := s.detached ++ [emptySpan] })

/-- One round of the `each` loop of `getLongest` on the variable `longest`. -/
def step (s : Page) (longest : Handle) (e : Path) : Handle :=
  if jsLength (s.text (.attached e)) > jsLength (s.text longest) then .attached e else longest

/-- Function `getLongest(name)`. -/
def getLongest (name : String) (s : Page) : Handle × Page :=
  let (longest, s1) := s.createSpan
  ((jq s1.doc name).foldl (step s1) longest, s1)

/-- Function `getFocus()`. -/
def getFocus (s : Page) : Handle × Page :=
  let (ins, s1) := getLongest "ins" s
  let (del, s2) := getLongest "del" s1
  if jsLength (s2.text ins) > jsLength (s2.text del) then (ins, s2) else (del, s2)

/-- Call `h.addClass(c)`. -/
def Page.addClass (s : Page) (h : Handle) (c : String) : Page :=
  match h with
  | .attached p => { s with doc := update [p] (addClassAttr c) s.doc }
  | .detached i =>
    match s.detached[i]? with
    | some n => { s with detached := s.detached.set i (update [[]] (addClassAttr c) n) }
    | none => s

/-- Function `clip()`. -/
def clip (s : Page) : Page :=
  let (focus, s1) := getFocus s
  s1.addClass focus "keep"

/-- The document element behind a handle; none for a detached element. -/
def Handle.mark? : Handle → Option Path
  | .attached p => some p
  | .detached _ => none

/-- Text length of an optional mark of the document, 0 when there is none. -/
def markLength (d : Node) : Option Path → Nat
  | none => 0
  | some p => jsLength (textOf d p)

/-- The loop of `getLongest` read on the document alone: the running best is a
mark of the document, or none while the empty placeholder span is still held. -/
def longestMark (d : Node) (name : String) : Option Path :=
  (jq d name).foldl
    (fun best e => if jsLength (textOf d e) > markLength d best then some e else best) none

/-- The choice of `getFocus` read on the document alone. -/
def focusMark (d : Node) : Option Path :=
  if markLength d (longestMark d "ins") > markLength d (longestMark d "del")
  then longestMark d "ins" else longestMark d "del"

end DiffsClip

/-! ## Sample documents -/

/-- An element with no class, no inline style, visible. -/
def el (tag : String) (cs : List Node) : Node := .elem ⟨tag, [], [], false⟩ cs

/-- A `div` of class `diff`. -/
def diffDiv (cs : List Node) : Node := .elem ⟨"div", ["diff"], [], false⟩ cs

/-- Example 1 of the specification: region A with `hello` inserted and `hi`
deleted, region B with `x` inserted, both inside one diff container. -/
def docAB : Node :=
  el "html" [diffDiv [el "p" [el "ins" [.textNode "hello"], .textNode " ", el "del" [.textNode "hi"]],
                      el "p" [el "ins" [.textNode "x"]]]]

/-- Children of region C of Example 4: a direct `del` child, and an `ins` two
levels down inside a `span` wrapper. -/
def regionCKids : List Node :=
  [el "del" [.textNode "ab"], el "span" [el "ins" [.textNode "xyz"]]]

/-- Region C of Example 4. -/
def regionC : Node := el "p" regionCKids

/-- Children of a paragraph with plain text, an empty `ins` and an unrelated `em`. -/
def plainKids : List Node := [.textNode "same", el "ins" [], el "em" [.textNode "x"]]

/-- A page whose only paragraph carries no mark. -/
def docPlain : Node := el "html" [diffDiv [el "p" plainKids]]

/-- A page without any paragraph, with one visible block in a diff container. -/
def docNoP : Node := el "html" [diffDiv [el "div" [.textNode "a"]]]

/-- Example 3: one `ins` and one `del` of length 4 each. -/
def docTie : Node := el "html" [el "p" [el "ins" [.textNode "abcd"], el "del" [.textNode "wxyz"]]]

/-- A page whose only mark is an empty `ins`. -/
def docEmptyIns : Node := el "html" [el "p" [el "ins" [], .textNode "same"]]

/-- A page with one empty `ins` and one empty `del`: the longest insertion and the
longest deletion both have length 0. -/
def docBothEmpty : Node := el "html" [el "p" [el "ins" [], el "del" []]]

/-- Texts of the direct children of a region that are `tag` elements, in document
order. -/
def directTexts (tag : String) : List Node → List String
  | [] => []
  | .textNode _ :: cs => directTexts tag cs
  | .elem a cs' :: cs =>
    if a.tag = tag then (Node.elem a cs').text :: directTexts tag cs
    else directTexts tag cs

/-- Number of code points of a text that lie outside the Basic Multilingual Plane. -/
def astralCount (s : String) : Nat :=
  (s.data.filter (fun c => !decide (c.val < 0x10000))).length

/-- The one-character text U+1F600, a code point outside the Basic Multilingual
Plane. -/
def grin : String := String.singleton (Char.ofNat 0x1F600)

/-- A page with one paragraph holding an `ins` of text `t` and a `del` of text `u`. -/
def markDoc (t u : String) : Node :=
  el "html" [el "p" [el "ins" [.textNode t], el "del" [.textNode u]]]

/-- Region C of Example 4 moved elsewhere, with other attributes, another wrapper
and more plain text around the same direct mark. -/
def docMoved : Node :=
  el "html" [el "h1" [.textNode "title"],
    diffDiv [.elem ⟨"p", ["lead"], [("color", "red")], true⟩
      [.textNode "intro ", el "em" [el "ins" [.textNode "q"]], el "del" [.textNode "ab"]]]]

/-- Three `ins` marks, the first two of the same, greatest length. -/
def docTwoIns : Node :=
  el "html" [el "ins" [.textNode "ab"], el "ins" [.textNode "cd"], el "ins" [.textNode "e"]]

/-- A page whose only marked paragraph lies two levels below a child of the diff
container. -/
def docDeep : Node :=
  el "html" [diffDiv [el "div" [el "section" [el "p" [el "ins" [.textNode "x"]]]]]]

/-! ## Structural lemmas on documents -/

theorem Node.induct {P : Node → Prop} (ht : ∀ s, P (.textNode s))
    (he : ∀ a cs, (∀ c ∈ cs, P c) → P (.elem a cs)) : ∀ n, P n :=
  @Node.rec P (fun cs => ∀ c ∈ cs, P c) ht (fun a cs ih => he a cs ih)
    (fun c hc => by simp at hc)
    (fun c cs hc hcs x hx => by
      rcases List.mem_cons.mp hx with h | h
      · exact h ▸ hc
      · exact hcs x h)

@[simp] theorem getAt_nil (n : Node) : n.getAt [] = some n := by
  cases n <;> rfl

@[simp] theorem getAt_textNode_cons (s : String) (i : Nat) (p : Path) :
    (Node.textNode s).getAt (i :: p) = none := rfl

theorem getAt_elem_cons (a : Attrs) (cs : List Node) (i : Nat) (p : Path) :
    (Node.elem a cs).getAt (i :: p) = (cs[i]?).bind (fun c => c.getAt p) := by
  simp only [Node.getAt]
  cases cs[i]? <;> rfl

theorem getAt_append (n : Node) (p q : Path) :
    n.getAt (p ++ q) = (n.getAt p).bind (fun m => m.getAt q) := by
  induction p generalizing n with
  | nil => simp
  | cons i p ih =>
    cases n with
    | textNode s => simp
    | elem a cs =>
      simp only [List.cons_append, getAt_elem_cons]
      cases cs[i]? with
      | none => rfl
      | some c => simpa using ih c

theorem textAll_mapAttrsFrom (cs : List Node)
    (h : ∀ c ∈ cs, ∀ g : Path → Attrs → Attrs, (c.mapAttrs g).text = c.text)
    (g : Path → Attrs → Attrs) (i : Nat) : textAll (mapAttrsFrom g i cs) = textAll cs := by
  induction cs generalizing i with
  | nil => rfl
  | cons c cs ih =>
    simp only [mapAttrsFrom, textAll]
    rw [h c (List.mem_cons_self _ _), ih (fun x hx => h x (List.mem_cons_of_mem _ hx))]

theorem text_mapAttrs (n : Node) : ∀ g : Path → Attrs → Attrs, (n.mapAttrs g).text = n.text := by
  induction n using Node.induct with
  | ht s => intro g; rfl
  | he a cs ih => intro g; simp only [Node.mapAttrs, Node.text]; exact textAll_mapAttrsFrom cs ih g 0

theorem getElem?_mapAttrsFrom (g : Path → Attrs → Attrs) (cs : List Node) (i j : Nat) :
    (mapAttrsFrom g i cs)[j]? = (cs[j]?).map (fun c => c.mapAttrs (fun q => g ((i + j) :: q))) := by
  induction cs generalizing i j with
  | nil => simp [mapAttrsFrom]
  | cons c cs ih =>
    cases j with
    | zero => simp [mapAttrsFrom]
    | succ j =>
      simp only [mapAttrsFrom, List.getElem?_cons_succ, ih]
      have : i + 1 + j = i + (j + 1) := by omega
      rw [this]

theorem getAt_mapAttrs (n : Node) (g : Path → Attrs → Attrs) (p : Path) :
    (n.mapAttrs g).getAt p = (n.getAt p).map (fun m => m.mapAttrs (fun q => g (p ++ q))) := by
  induction p generalizing n g with
  | nil => simp
  | cons i p ih =>
    cases n with
    | textNode s => simp [Node.mapAttrs]
    | elem a cs =>
      simp only [Node.mapAttrs, getAt_elem_cons, getElem?_mapAttrsFrom]
      cases cs[i]? with
      | none => rfl
      | some c => simpa using ih c _

theorem attrs?_mapAttrs (n : Node) (g : Path → Attrs → Attrs) :
    (n.mapAttrs g).attrs? = n.attrs?.map (g []) := by
  cases n <;> rfl

theorem attrsAt_mapAttrs (d : Node) (g : Path → Attrs → Attrs) (p : Path) :
    attrsAt (d.mapAttrs g) p = (attrsAt d p).map (g p) := by
  simp only [attrsAt, getAt_mapAttrs]
  cases d.getAt p with
  | none => rfl
  | some m => simp [attrs?_mapAttrs]

theorem textAt_mapAttrs (d : Node) (g : Path → Attrs → Attrs) (p : Path) :
    textAt (d.mapAttrs g) p = textAt d p := by
  simp only [textAt, getAt_mapAttrs]
  cases d.getAt p with
  | none => rfl
  | some m => simp [text_mapAttrs]

theorem textOf_mapAttrs (d : Node) (g : Path → Attrs → Attrs) (p : Path) :
    textOf (d.mapAttrs g) p = textOf d p := by
  simp only [textOf, getAt_mapAttrs]
  cases d.getAt p with
  | none => rfl
  | some m => simp [text_mapAttrs]

theorem selectFrom_mapAttrsFrom (pred : Attrs → Bool) (cs : List Node)
    (h : ∀ c ∈ cs, ∀ g : Path → Attrs → Attrs, (∀ p a, pred (g p a) = pred a) →
      (c.mapAttrs g).select pred = c.select pred)
    (g : Path → Attrs → Attrs) (hg : ∀ p a, pred (g p a) = pred a) (i j : Nat) :
    selectFrom pred j (mapAttrsFrom g i cs) = selectFrom pred j cs := by
  induction cs generalizing i j with
  | nil => rfl
  | cons c cs ih =>
    simp only [mapAttrsFrom, selectFrom]
    rw [h c (List.mem_cons_self _ _) _ (fun p a => hg _ a),
      ih (fun x hx => h x (List.mem_cons_of_mem _ hx))]

theorem select_mapAttrs (pred : Attrs → Bool) (n : Node) :
    ∀ g : Path → Attrs → Attrs, (∀ p a, pred (g p a) = pred a) →
      (n.mapAttrs g).select pred = n.select pred := by
  induction n using Node.induct with
  | ht s => intro g _; rfl
  | he a cs ih =>
    intro g hg
    simp only [Node.mapAttrs, Node.select, hg]
    rw [selectFrom_mapAttrsFrom pred cs ih g hg 0 0]

theorem mapAttrsFrom_mapAttrsFrom (cs : List Node)
    (h : ∀ c ∈ cs, ∀ g k : Path → Attrs → Attrs,
      (c.mapAttrs k).mapAttrs g = c.mapAttrs (fun p a => g p (k p a)))
    (g k : Path → Attrs → Attrs) (i : Nat) :
    mapAttrsFrom g i (mapAttrsFrom k i cs) = mapAttrsFrom (fun p a => g p (k p a)) i cs := by
  induction cs generalizing i with
  | nil => rfl
  | cons c cs ih =>
    simp only [mapAttrsFrom]
    rw [h c (List.mem_cons_self _ _), ih (fun x hx => h x (List.mem_cons_of_mem _ hx))]

theorem mapAttrs_mapAttrs (n : Node) : ∀ g k : Path → Attrs → Attrs,
    (n.mapAttrs k).mapAttrs g = n.mapAttrs (fun p a => g p (k p a)) := by
  induction n using Node.induct with
  | ht s => intro g k; rfl
  | he a cs ih =>
    intro g k
    simp only [Node.mapAttrs]
    rw [mapAttrsFrom_mapAttrsFrom cs ih g k 0]

theorem childIdx_mapAttrsFrom (pred : Attrs → Bool) (g : Path → Attrs → Attrs)
    (hg : ∀ p a, pred (g p a) = pred a) (cs : List Node) (i j : Nat) :
    childIdx pred j (mapAttrsFrom g i cs) = childIdx pred j cs := by
  induction cs generalizing i j with
  | nil => rfl
  | cons c cs ih =>
    cases c with
    | textNode s => simp only [mapAttrsFrom, Node.mapAttrs, childIdx, ih]
    | elem a cs' => simp only [mapAttrsFrom, Node.mapAttrs, childIdx, ih, hg]

theorem childrenAt_mapAttrs (d : Node) (g : Path → Attrs → Attrs) (sel : Option String)
    (hg : ∀ (s : String) p a, matchesSel s (g p a) = matchesSel s a) (p : Path) :
    childrenAt (d.mapAttrs g) sel p = childrenAt d sel p := by
  simp only [childrenAt, getAt_mapAttrs]
  cases d.getAt p with
  | none => rfl
  | some m =>
    cases m with
    | textNode s => rfl
    | elem a cs =>
      simp only [Option.map_some', Node.mapAttrs]
      rw [childIdx_mapAttrsFrom]
      intro q b
      cases sel with
      | none => rfl
      | some s => exact hg s _ b

theorem children_mapAttrs (d : Node) (g : Path → Attrs → Attrs) (sel : Option String)
    (hg : ∀ (s : String) p a, matchesSel s (g p a) = matchesSel s a) (s : JQ) :
    children (d.mapAttrs g) s sel = children d s sel := by
  simp only [children]
  congr 1
  funext p
  exact childrenAt_mapAttrs d g sel hg p

theorem jq_mapAttrs (d : Node) (g : Path → Attrs → Attrs) (sel : String)
    (hg : ∀ p a, matchesSel sel (g p a) = matchesSel sel a) :
    jq (d.mapAttrs g) sel = jq d sel :=
  select_mapAttrs _ d g hg

/-- Attribute rewritings that keep the tag and the class list keep every selector match. -/
theorem matchesSel_of_same (s : String) (a b : Attrs) (ht : b.tag = a.tag)
    (hc : b.classes = a.classes) : matchesSel s b = matchesSel s a := by
  simp only [matchesSel, ht, hc]

theorem matchesSel_del (a : Attrs) : matchesSel "del" a = decide (a.tag = "del") := rfl
theorem matchesSel_ins (a : Attrs) : matchesSel "ins" a = decide (a.tag = "ins") := rfl
theorem matchesSel_p (a : Attrs) : matchesSel "p" a = decide (a.tag = "p") := rfl

theorem mapAttrsFrom_id (cs : List Node)
    (h : ∀ c ∈ cs, ∀ g : Path → Attrs → Attrs, (∀ p a, g p a = a) → c.mapAttrs g = c)
    (g : Path → Attrs → Attrs) (hg : ∀ p a, g p a = a) (i : Nat) :
    mapAttrsFrom g i cs = cs := by
  induction cs generalizing i with
  | nil => rfl
  | cons c cs ih =>
    simp only [mapAttrsFrom]
    rw [h c (List.mem_cons_self _ _) _ (fun p a => hg _ a),
      ih (fun x hx => h x (List.mem_cons_of_mem _ hx))]

theorem mapAttrs_id (n : Node) :
    ∀ g : Path → Attrs → Attrs, (∀ p a, g p a = a) → n.mapAttrs g = n := by
  induction n using Node.induct with
  | ht s => intro g _; rfl
  | he a cs ih =>
    intro g hg
    simp only [Node.mapAttrs, hg]
    rw [mapAttrsFrom_id cs ih g hg 0]

theorem update_nil (f : Attrs → Attrs) (d : Node) : update [] f d = d :=
  mapAttrs_id d _ (fun p a => by simp)

theorem foldl_add_sum (f : Path → Nat) (l : List Path) (init : Int) :
    l.foldl (fun length c => length + (f c : Int)) init = init + ((l.map f).sum : Nat) := by
  induction l generalizing init with
  | nil => simp
  | cons c l ih => simp only [List.foldl_cons, ih, List.map_cons, List.sum_cons]; push_cast; ring

theorem childIdx_lengths (tag : String) (pred : Attrs → Bool)
    (hp : ∀ a, pred a = decide (a.tag = tag)) (cs pre : List Node) :
    (childIdx pred pre.length cs).map
        (fun i => jsLength (match (pre ++ cs)[i]? with | some n => n.text | none => ""))
      = directLengths tag cs := by
  induction cs generalizing pre with
  | nil => rfl
  | cons c cs ih =>
    have h := ih (pre ++ [c])
    simp only [List.length_append, List.length_singleton, List.append_assoc,
      List.singleton_append] at h
    cases c with
    | textNode s => simpa [childIdx, directLengths] using h
    | elem a cs' =>
      have hx : (pre ++ Node.elem a cs' :: cs)[pre.length]? = some (Node.elem a cs') := by
        rw [List.getElem?_append_right (le_refl _)]; simp
      by_cases ht : a.tag = tag
      · simp only [childIdx, directLengths, hp, ht, decide_True, if_true, List.map_cons, hx, h]
      · simp only [childIdx, directLengths, hp, ht, decide_False, if_false]
        exact h

theorem textOf_child (d : Node) (e : Path) (a : Attrs) (cs : List Node)
    (h : d.getAt e = some (.elem a cs)) (i : Nat) :
    textOf d (e ++ [i]) = (match cs[i]? with | some n => n.text | none => "") := by
  simp only [textOf, getAt_append, h, Option.some_bind, getAt_elem_cons]
  cases cs[i]? <;> simp

theorem count_eq_sum (d : Node) (e : Path) (a : Attrs) (cs : List Node)
    (h : d.getAt e = some (.elem a cs)) (sel : String)
    (hp : ∀ b, matchesSel sel b = decide (b.tag = sel)) :
    Clip.count d e sel = ((directLengths sel cs).sum : Nat) := by
  have hk := childIdx_lengths sel (matchesSel sel) hp cs []
  simp only [List.length_nil, List.nil_append] at hk
  simp only [Clip.count, children, List.flatMap_cons, List.flatMap_nil, List.append_nil,
    childrenAt, h, foldl_add_sum, List.map_map, zero_add]
  rw [← hk]
  congr 2
  apply List.map_congr_left
  intro i _
  simp [Function.comp, textOf_child d e a cs h]

theorem changesLength_eq_sum (d : Node) (e : Path) (a : Attrs) (cs : List Node)
    (h : d.getAt e = some (.elem a cs)) :
    Clip.changesLength d e
      = (((directLengths "del" cs).sum + (directLengths "ins" cs).sum : Nat) : Int) := by
  simp only [Clip.changesLength, count_eq_sum d e a cs h "del" matchesSel_del,
    count_eq_sum d e a cs h "ins" matchesSel_ins]
  push_cast; rfl

theorem directLengths_append (tag : String) (xs ys : List Node) :
    directLengths tag (xs ++ ys) = directLengths tag xs ++ directLengths tag ys := by
  induction xs with
  | nil => rfl
  | cons c xs ih =>
    cases c with
    | textNode s => simpa [directLengths] using ih
    | elem a cs' =>
      by_cases ht : a.tag = tag <;> simp [directLengths, ht, ih]

/-! ## Paragraph variant: the measurer -/

theorem foldl_add_nonneg (f : Path → Nat) (l : List Path) (init : Int) (h : 0 ≤ init) :
    0 ≤ l.foldl (fun length c => length + (f c : Int)) init := by
  rw [foldl_add_sum]
  have : (0 : Int) ≤ ((l.map f).sum : Nat) := Int.natCast_nonneg _
  omega

theorem directLengths_sum_zero (tag : String) (cs : List Node)
    (h : ∀ b cs', Node.elem b cs' ∈ cs → b.tag = tag → jsLength (Node.elem b cs').text = 0) :
    (directLengths tag cs).sum = 0 := by
  induction cs with
  | nil => rfl
  | cons c cs ih =>
    have ih' := ih (fun b cs' hm => h b cs' (List.mem_cons_of_mem _ hm))
    cases c with
    | textNode s => simpa [directLengths] using ih'
    | elem a cs' =>
      by_cases ht : a.tag = tag
      · simp [directLengths, ht, ih', h a cs' (List.mem_cons_self _ _) ht]
      · simp [directLengths, ht, ih']

/-- C2. For a region that is the element `a` with child nodes `cs`, `count` is the
sum of the text lengths of the direct children with the given mark tag, and
`changesLength` is the sum over the direct `del` children plus the sum over the direct
`ins` children.  A direct child that is a non-mark wrapper element adds nothing,
whatever marks it contains: the weight equals that of a region with the same children
minus the wrapper. -/
theorem changesLength_counts_direct_marks (d : Node) (e : Path) (a : Attrs) (cs : List Node)
    (h : d.getAt e = some (.elem a cs)) :
    Clip.count d e "del" = ((directLengths "del" cs).sum : Nat) ∧
    Clip.count d e "ins" = ((directLengths "ins" cs).sum : Nat) ∧
    Clip.changesLength d e
      = (((directLengths "del" cs).sum + (directLengths "ins" cs).sum : Nat) : Int) ∧
    ∀ (pre post inner : List Node) (w : Attrs), cs = pre ++ Node.elem w inner :: post →
      w.tag ≠ "ins" → w.tag ≠ "del" →
      ∀ (d' : Node) (e' : Path) (a' : Attrs), d'.getAt e' = some (.elem a' (pre ++ post)) →
        Clip.changesLength d e = Clip.changesLength d' e' := by
  refine ⟨count_eq_sum d e a cs h "del" matchesSel_del,
    count_eq_sum d e a cs h "ins" matchesSel_ins, changesLength_eq_sum d e a cs h, ?_⟩
  intro pre post inner w hcs hi hd d' e' a' h'
  rw [changesLength_eq_sum d e a cs h, changesLength_eq_sum d' e' a' _ h', hcs]
  simp [directLengths_append, directLengths, hi, hd]

/-- Region C of Example 4 weighs 2, the same as without its wrapper child. -/
theorem changesLength_counts_direct_marks_witness :
    Clip.changesLength regionC [] = 2 ∧
    Clip.changesLength regionC [] = Clip.changesLength (el "p" [el "del" [.textNode "ab"]]) [] :=
  ⟨(changesLength_counts_direct_marks regionC [] ⟨"p", [], [], false⟩ regionCKids rfl).2.2.1.trans
      (by decide),
   (changesLength_counts_direct_marks regionC [] ⟨"p", [], [], false⟩ regionCKids rfl).2.2.2
     [el "del" [.textNode "ab"]] [] [el "ins" [.textNode "xyz"]] ⟨"span", [], [], false⟩ rfl
     (by decide) (by decide) (el "p" [el "del" [.textNode "ab"]]) [] ⟨"p", [], [], false⟩ rfl⟩

/-- C10. `count` and `changesLength` are never negative, and a region none of whose
direct `ins` and `del` children has any text (in particular a region without such
children) has weight 0. -/
theorem changesLength_nonneg_and_zero (d : Node) (e : Path) (sel : String) :
    0 ≤ Clip.count d e sel ∧ 0 ≤ Clip.changesLength d e ∧
    ∀ (a : Attrs) (cs : List Node), d.getAt e = some (.elem a cs) →
      (∀ b cs', Node.elem b cs' ∈ cs → (b.tag = "ins" ∨ b.tag = "del") →
        jsLength (Node.elem b cs').text = 0) →
      Clip.count d e "ins" = 0 ∧ Clip.count d e "del" = 0 ∧ Clip.changesLength d e = 0 := by
  refine ⟨foldl_add_nonneg _ _ 0 (le_refl _), ?_, ?_⟩
  · have h1 : 0 ≤ Clip.count d e "del" := foldl_add_nonneg _ _ 0 (le_refl _)
    have h2 : 0 ≤ Clip.count d e "ins" := foldl_add_nonneg _ _ 0 (le_refl _)
    simp only [Clip.changesLength]; omega
  · intro a cs h hz
    have hi := directLengths_sum_zero "ins" cs (fun b cs' hm ht => hz b cs' hm (Or.inl ht))
    have hd := directLengths_sum_zero "del" cs (fun b cs' hm ht => hz b cs' hm (Or.inr ht))
    rw [changesLength_eq_sum d e a cs h, count_eq_sum d e a cs h "ins" matchesSel_ins,
      count_eq_sum d e a cs h "del" matchesSel_del, hi, hd]
    simp

/-- A paragraph whose only mark is an empty `ins` weighs 0. -/
theorem changesLength_nonneg_and_zero_witness :
    Clip.changesLength (el "p" plainKids) [] = 0 :=
  ((changesLength_nonneg_and_zero (el "p" plainKids) [] "ins").2.2
    ⟨"p", [], [], false⟩ plainKids rfl (by
      intro b cs' hm ht
      simp only [plainKids, el, List.mem_cons, Node.elem.injEq, List.mem_singleton, reduceCtorEq,
        false_or, List.not_mem_nil, or_false] at hm
      rcases hm with ⟨rfl, rfl⟩ | ⟨rfl, rfl⟩
      · decide
      · rcases ht with ht | ht <;> exact absurd ht (by decide))).2.2

/-! ## Validity of the handles returned by the queries -/

theorem mem_selectFrom (pred : Attrs → Bool) (cs : List Node) (i : Nat) (p : Path)
    (h : p ∈ selectFrom pred i cs) :
    ∃ j q c, p = (i + j) :: q ∧ cs[j]? = some c ∧ q ∈ c.select pred := by
  induction cs generalizing i with
  | nil => simp [selectFrom] at h
  | cons c cs ih =>
    simp only [selectFrom, List.mem_append, List.mem_map] at h
    rcases h with ⟨q, hq, rfl⟩ | h
    · exact ⟨0, q, c, rfl, by simp, hq⟩
    · obtain ⟨j, q, c', hp, hj, hq⟩ := ih (i + 1) h
      exact ⟨j + 1, q, c', by rw [hp]; congr 1; omega, by simpa using hj, hq⟩

theorem mem_select (pred : Attrs → Bool) (n : Node) :
    ∀ p, p ∈ n.select pred → ∃ a cs, n.getAt p = some (.elem a cs) ∧ pred a = true := by
  induction n using Node.induct with
  | ht s => intro p hp; simp [Node.select] at hp
  | he a cs ih =>
    intro p hp
    simp only [Node.select, List.mem_append] at hp
    rcases hp with hp | hp
    · by_cases hpa : pred a = true
      · simp only [hpa, if_true, List.mem_singleton] at hp
        subst hp
        exact ⟨a, cs, by simp, hpa⟩
      · simp [hpa] at hp
    · obtain ⟨j, q, c, rfl, hj, hq⟩ := mem_selectFrom pred cs 0 p hp
      obtain ⟨b, cs', hb, hpb⟩ := ih c (List.getElem?_mem hj) q hq
      refine ⟨b, cs', ?_, hpb⟩
      simp only [getAt_elem_cons, Nat.zero_add, hj, Option.some_bind, hb]

theorem mem_childIdx (pred : Attrs → Bool) (cs : List Node) (i j : Nat)
    (h : j ∈ childIdx pred i cs) : ∃ k a cs', j = i + k ∧ cs[k]? = some (.elem a cs') := by
  induction cs generalizing i with
  | nil => simp [childIdx] at h
  | cons c cs ih =>
    have tl : j ∈ childIdx pred (i + 1) cs → ∃ k a cs', j = i + k ∧ (c :: cs)[k]? = some (.elem a cs') := by
      intro h'
      obtain ⟨k, a, cs', hk, hc⟩ := ih (i + 1) h'
      exact ⟨k + 1, a, cs', by omega, by simpa using hc⟩
    cases c with
    | textNode s => exact tl (by simpa [childIdx] using h)
    | elem a cs' =>
      simp only [childIdx] at h
      split at h
      · rcases List.mem_cons.mp h with rfl | h
        · exact ⟨0, a, cs', rfl, by simp⟩
        · exact tl h
      · exact tl h

theorem mem_childrenAt (d : Node) (sel : Option String) (p c : Path) (h : c ∈ childrenAt d sel p) :
    ∃ a cs, d.getAt c = some (.elem a cs) := by
  simp only [childrenAt] at h
  split at h
  · rename_i b cs hp
    simp only [List.mem_map] at h
    obtain ⟨j, hj, rfl⟩ := h
    obtain ⟨k, a, cs', rfl, hk⟩ := mem_childIdx _ cs 0 j hj
    refine ⟨a, cs', ?_⟩
    simp [getAt_append, hp, getAt_elem_cons, hk]
  · simp at h

theorem mem_children (d : Node) (s : JQ) (sel : Option String) (c : Path)
    (h : c ∈ children d s sel) : ∃ a cs, d.getAt c = some (.elem a cs) := by
  simp only [children, List.mem_flatMap] at h
  obtain ⟨p, _, hc⟩ := h
  exact mem_childrenAt d sel p c hc

theorem parent_is_elem (d : Node) (w q : Path) (x : Node) (hw : d.getAt w = some x)
    (hq : parentPath w = some q) : ∃ a cs, d.getAt q = some (.elem a cs) := by
  cases w with
  | nil => simp [parentPath] at hq
  | cons i p =>
    simp only [parentPath, Option.some.injEq] at hq
    have hsplit : i :: p = q ++ [(i :: p).getLast (by simp)] := by
      rw [← hq]; exact (List.dropLast_append_getLast _).symm
    rw [hsplit, getAt_append] at hw
    cases hd : d.getAt q with
    | none => simp [hd] at hw
    | some m =>
      cases m with
      | textNode s => simp [hd] at hw
      | elem a cs => exact ⟨a, cs, rfl⟩

/-! ## Paragraph variant: the selector -/

theorem clip_fold_cases (d : Node) (l : List Path) : ∀ st : Option Path × Int,
    (l.foldl (Clip.step d) st = st ∧ ∀ x ∈ l, Clip.changesLength d x ≤ st.2) ∨
    (∃ pre e post, l = pre ++ e :: post ∧
      l.foldl (Clip.step d) st = (some e, Clip.changesLength d e) ∧
      st.2 < Clip.changesLength d e ∧
      (∀ x ∈ pre, Clip.changesLength d x < Clip.changesLength d e) ∧
      (∀ x ∈ post, Clip.changesLength d x ≤ Clip.changesLength d e)) := by
  induction l with
  | nil => intro st; left; simp
  | cons a l ih =>
    intro st
    simp only [List.foldl_cons]
    by_cases h : Clip.changesLength d a > st.2
    · have hs : Clip.step d st a = (some a, Clip.changesLength d a) := by simp [Clip.step, h]
      rw [hs]
      rcases ih (some a, Clip.changesLength d a) with
        ⟨h1, h2⟩ | ⟨pre, e, post, hl, hf, hlt, hpre, hpost⟩
      · right; exact ⟨[], a, l, rfl, h1, h, by simp, h2⟩
      · right
        refine ⟨a :: pre, e, post, by simp [hl], hf, ?_, ?_, hpost⟩
        · simp only at hlt; omega
        · intro x hx
          rcases List.mem_cons.mp hx with rfl | hx
          · exact hlt
          · exact hpre x hx
    · have hs : Clip.step d st a = st := by simp [Clip.step, h]
      rw [hs]
      rcases ih st with ⟨h1, h2⟩ | ⟨pre, e, post, hl, hf, hlt, hpre, hpost⟩
      · left
        refine ⟨h1, ?_⟩
        intro x hx
        rcases List.mem_cons.mp hx with rfl | hx
        · omega
        · exact h2 x hx
      · right
        refine ⟨a :: pre, e, post, by simp [hl], hf, hlt, ?_, hpost⟩
        intro x hx
        rcases List.mem_cons.mp hx with rfl | hx
        · omega
        · exact hpre x hx

theorem getParagraph_cases (d : Node) :
    (Clip.getParagraph d = [] ∧ ∀ x ∈ jq d "p", Clip.changesLength d x ≤ 0) ∨
    (∃ pre e post, jq d "p" = pre ++ e :: post ∧ Clip.getParagraph d = [e] ∧
      0 < Clip.changesLength d e ∧
      (∀ x ∈ pre, Clip.changesLength d x < Clip.changesLength d e) ∧
      (∀ x ∈ post, Clip.changesLength d x ≤ Clip.changesLength d e)) := by
  rcases clip_fold_cases d (jq d "p") (none, 0) with
    ⟨h1, h2⟩ | ⟨pre, e, post, hl, hf, hlt, hpre, hpost⟩
  · left; exact ⟨by simp [Clip.getParagraph, h1, ofElem], h2⟩
  · right; exact ⟨pre, e, post, hl, by simp [Clip.getParagraph, hf, ofElem], hlt, hpre, hpost⟩

theorem getParagraph_mem (d : Node) (w : Path) (h : Clip.getParagraph d = [w]) :
    w ∈ jq d "p" := by
  rcases getParagraph_cases d with ⟨h1, _⟩ | ⟨pre, e, post, hl, hf, _⟩
  · rw [h1] at h; cases h
  · rw [hf] at h; cases h; simp [hl]

/-- C1, as amended. When some paragraph has a positive change weight, `getParagraph`
returns one paragraph `w`; its weight is at least that of every paragraph, and every
paragraph before it in document order weighs strictly less. -/
theorem getParagraph_first_heaviest (d : Node)
    (h : ∃ q ∈ jq d "p", 0 < Clip.changesLength d q) :
    ∃ w pre post, Clip.getParagraph d = [w] ∧ jq d "p" = pre ++ w :: post ∧
      (∀ q ∈ jq d "p", Clip.changesLength d q ≤ Clip.changesLength d w) ∧
      (∀ q ∈ pre, Clip.changesLength d q < Clip.changesLength d w) := by
  rcases getParagraph_cases d with ⟨_, h2⟩ | ⟨pre, e, post, hl, hf, _, hpre, hpost⟩
  · obtain ⟨q, hq, hpos⟩ := h
    have := h2 q hq
    omega
  · refine ⟨e, pre, post, hf, hl, ?_, hpre⟩
    intro q hq
    rw [hl] at hq
    rcases List.mem_append.mp hq with hq | hq
    · exact le_of_lt (hpre q hq)
    · rcases List.mem_cons.mp hq with rfl | hq
      · exact le_refl _
      · exact hpost q hq

/-- Example 1: region A weighs 7, region B weighs 1, and A is selected. -/
theorem getParagraph_first_heaviest_witness :
    Clip.changesLength docAB [0, 0] = 7 ∧ Clip.changesLength docAB [0, 1] = 1 ∧
    Clip.getParagraph docAB = [[0, 0]] ∧
    ∃ w pre post, Clip.getParagraph docAB = [w] ∧ jq docAB "p" = pre ++ w :: post ∧
      (∀ q ∈ jq docAB "p", Clip.changesLength docAB q ≤ Clip.changesLength docAB w) ∧
      (∀ q ∈ pre, Clip.changesLength docAB q < Clip.changesLength docAB w) :=
  ⟨by decide, by decide, by decide,
    getParagraph_first_heaviest docAB ⟨[0, 0], by decide, by decide⟩⟩

/-- C1 as stated fails: `docPlain` has a paragraph, yet no region is returned. -/
theorem getParagraph_winner_counterexample :
    jq docPlain "p" = [[0, 0]] ∧ ¬ ∃ w, Clip.getParagraph docPlain = [w] := by
  refine ⟨by decide, ?_⟩
  rintro ⟨w, hw⟩
  have h0 : Clip.getParagraph docPlain = [] := by decide
  rw [h0] at hw
  cases hw

/-! ## Paragraph variant: the applier -/

theorem setProp_setProp (k v : String) (s : List (String × String)) :
    setProp k v (setProp k v s) = setProp k v s := by
  induction s with
  | nil => simp [setProp]
  | cons kv s ih =>
    obtain ⟨k', v'⟩ := kv
    by_cases hk : k' = k
    · simp [setProp, hk]
    · simp [setProp, hk, ih]

theorem getProp_setProp (k v : String) (s : List (String × String)) :
    getProp k (setProp k v s) = some v := by
  induction s with
  | nil => simp [setProp, getProp]
  | cons kv s ih =>
    obtain ⟨k', v'⟩ := kv
    by_cases hk : k' = k
    · simp [setProp, getProp, hk]
    · simp [setProp, getProp, hk, ih]

theorem clipAttrs_tag (w hidden : JQ) (q : Path) (a : Attrs) :
    (Clip.clipAttrs w hidden q a).tag = a.tag := by
  simp only [Clip.clipAttrs]
  split_ifs <;> rfl

theorem clipAttrs_classes (w hidden : JQ) (q : Path) (a : Attrs) :
    (Clip.clipAttrs w hidden q a).classes = a.classes := by
  simp only [Clip.clipAttrs]
  split_ifs <;> rfl

theorem clipAttrs_matchesSel (w hidden : JQ) (s : String) (q : Path) (a : Attrs) :
    matchesSel s (Clip.clipAttrs w hidden q a) = matchesSel s a :=
  matchesSel_of_same s a _ (clipAttrs_tag w hidden q a) (clipAttrs_classes w hidden q a)

theorem clipAttrs_clipAttrs (w hidden : JQ) (q : Path) (a : Attrs) :
    Clip.clipAttrs w hidden q (Clip.clipAttrs w hidden q a) = Clip.clipAttrs w hidden q a := by
  simp only [Clip.clipAttrs]
  by_cases h1 : q ∈ w <;> by_cases h2 : q ∈ hidden <;> by_cases h3 : q ∈ parent w <;>
    simp [h1, h2, h3, setProp_setProp]

theorem css_matchesSel (w : JQ) (k v s : String) (q : Path) (a : Attrs) :
    matchesSel s (if q ∈ w then { a with style := setProp k v a.style } else a)
      = matchesSel s a := by
  split_ifs
  · exact matchesSel_of_same s a _ rfl rfl
  · rfl

theorem clip_eq_mapAttrs (d : Node) :
    Clip.clip d
      = d.mapAttrs (Clip.clipAttrs (Clip.getParagraph d) (children d (jq d ".diff") none)) := by
  have hj : ∀ w : JQ, jq (css w "border" "thin solid black" d) ".diff" = jq d ".diff" :=
    fun w => jq_mapAttrs d _ ".diff" (fun q a => css_matchesSel w _ _ _ q a)
  have hc : ∀ w s : JQ, children (css w "border" "thin solid black" d) s none
      = children d s none :=
    fun w s => children_mapAttrs d _ none (fun t q a => css_matchesSel w _ _ t q a) s
  simp only [Clip.clip, hj, hc]
  simp only [css, hide, showEl, update, mapAttrs_mapAttrs]
  rfl

theorem count_mapAttrs (d : Node) (g : Path → Attrs → Attrs)
    (hg : ∀ (s : String) p a, matchesSel s (g p a) = matchesSel s a) (e : Path) (sel : String) :
    Clip.count (d.mapAttrs g) e sel = Clip.count d e sel := by
  simp only [Clip.count, children_mapAttrs d g (some sel) hg, textOf_mapAttrs]

theorem getParagraph_mapAttrs (d : Node) (g : Path → Attrs → Attrs)
    (hg : ∀ (s : String) p a, matchesSel s (g p a) = matchesSel s a) :
    Clip.getParagraph (d.mapAttrs g) = Clip.getParagraph d := by
  have hs : Clip.step (d.mapAttrs g) = Clip.step d := by
    funext st e
    simp only [Clip.step, Clip.changesLength, count_mapAttrs d g hg]
  simp only [Clip.getParagraph, hs, jq_mapAttrs d g "p" (hg "p")]

/-- C5, as amended. Without any paragraph `getParagraph` returns the empty selection,
and `clip` does exactly the hide step: the children of the diff containers become
hidden, and nothing else changes, neither a text, a tag, a class or a style, nor
the visibility of any other element. -/
theorem clip_without_paragraph (d : Node) (h : jq d "p" = []) :
    Clip.getParagraph d = [] ∧
    Clip.clip d = hide (children d (jq d ".diff") none) d ∧
    ∀ q, textAt (Clip.clip d) q = textAt d q ∧
      attrsAt (Clip.clip d) q
        = if q ∈ children d (jq d ".diff") none
          then (attrsAt d q).map (fun a => { a with hidden := true })
          else attrsAt d q := by
  have hp : Clip.getParagraph d = [] := by simp [Clip.getParagraph, h, ofElem]
  have hc : Clip.clip d = hide (children d (jq d ".diff") none) d := by
    simp only [Clip.clip, hp, css, showEl, parent, List.filterMap_nil, update_nil]
  refine ⟨hp, hc, fun q => ⟨?_, ?_⟩⟩
  · rw [hc]; exact textAt_mapAttrs d _ q
  · rw [hc, hide, update, attrsAt_mapAttrs]
    split_ifs <;> simp

/-- On `docNoP` the hypothesis holds and the block inside the diff container ends
up hidden. -/
theorem clip_without_paragraph_witness :
    Clip.getParagraph docNoP = [] ∧
    Clip.clip docNoP = hide (children docNoP (jq docNoP ".diff") none) docNoP ∧
    ∀ q, textAt (Clip.clip docNoP) q = textAt docNoP q ∧
      attrsAt (Clip.clip docNoP) q
        = if q ∈ children docNoP (jq docNoP ".diff") none
          then (attrsAt docNoP q).map (fun a => { a with hidden := true })
          else attrsAt docNoP q :=
  clip_without_paragraph docNoP (by decide)

/-- C5 as stated fails: `docNoP` has no paragraph, and `clip` hides the block inside
its diff container, which was visible. -/
theorem clip_without_paragraph_counterexample :
    jq docNoP "p" = [] ∧
    attrsAt docNoP [0, 0] = some ⟨"div", [], [], false⟩ ∧
    attrsAt (Clip.clip docNoP) [0, 0] = some ⟨"div", [], [], true⟩ := by
  decide

/-- C6. When `getParagraph` selects `w`, `clip` is the composition style, hide-all,
show winner, show parent; afterwards `w` carries the border and is visible, its
parent element is visible, and every child of a diff container other than `w` and
its parent is hidden. -/
theorem clip_post_state (d : Node) (w : Path) (h : Clip.getParagraph d = [w]) :
    Clip.clip d
      = showEl (parent [w]) (showEl [w]
          (hide (children (css [w] "border" "thin solid black" d)
                  (jq (css [w] "border" "thin solid black" d) ".diff") none)
            (css [w] "border" "thin solid black" d))) ∧
    (∃ a, attrsAt (Clip.clip d) w = some a ∧
      getProp "border" a.style = some "thin solid black" ∧ a.hidden = false) ∧
    (∀ q, parentPath w = some q → ∃ a, attrsAt (Clip.clip d) q = some a ∧ a.hidden = false) ∧
    (∀ c ∈ children d (jq d ".diff") none, c ≠ w → parentPath w ≠ some c →
      ∃ a, attrsAt (Clip.clip d) c = some a ∧ a.hidden = true) := by
  obtain ⟨a, cs, hw, _⟩ := mem_select _ d w (getParagraph_mem d w h)
  refine ⟨by simp only [Clip.clip, h], ?_, ?_, ?_⟩
  · refine ⟨Clip.clipAttrs [w] (children d (jq d ".diff") none) w a, ?_, ?_, ?_⟩
    · rw [clip_eq_mapAttrs, attrsAt_mapAttrs, h]; simp [attrsAt, hw, Node.attrs?]
    · simp only [Clip.clipAttrs, List.mem_singleton, if_true]
      split_ifs <;> simp [getProp_setProp]
    · simp only [Clip.clipAttrs, List.mem_singleton, if_true]
      split_ifs <;> rfl
  · intro q hq
    obtain ⟨b, cs', hb⟩ := parent_is_elem d w q _ hw hq
    refine ⟨Clip.clipAttrs [w] (children d (jq d ".diff") none) q b, ?_, ?_⟩
    · rw [clip_eq_mapAttrs, attrsAt_mapAttrs, h]; simp [attrsAt, hb, Node.attrs?]
    · have hm : q ∈ parent [w] := by simp [parent, hq]
      simp only [Clip.clipAttrs, hm, if_true]
  · intro c hc hcw hcp
    obtain ⟨b, cs', hb⟩ := mem_children d _ none c hc
    refine ⟨Clip.clipAttrs [w] (children d (jq d ".diff") none) c b, ?_, ?_⟩
    · rw [clip_eq_mapAttrs, attrsAt_mapAttrs, h]; simp [attrsAt, hb, Node.attrs?]
    · have hm : c ∉ parent [w] := by
        simp only [parent, List.filterMap_cons, List.filterMap_nil]
        cases hpw : parentPath w with
        | none => simp
        | some q => 
          simp only [List.mem_singleton]
          intro hcq
          exact hcp (by rw [hpw, hcq])
      simp only [Clip.clipAttrs, List.mem_singleton, hcw, if_false, hc, if_true, hm]

/-- On Example 1 region A is selected: it gets the border and is shown again after
the hide step, while region B stays hidden. -/
theorem clip_post_state_witness :
    Clip.getParagraph docAB = [[0, 0]] ∧
    attrsAt (Clip.clip docAB) [0, 1] = some ⟨"p", [], [], true⟩ ∧
    ∃ a, attrsAt (Clip.clip docAB) [0, 0] = some a ∧
      getProp "border" a.style = some "thin solid black" ∧ a.hidden = false :=
  ⟨by decide, by decide, (clip_post_state docAB [0, 0] (by decide)).2.1⟩

/-- C7. Running `clip` twice gives the same document as running it once, and
`getParagraph` selects the same region after `clip` as before. -/
theorem paragraph_clip_idempotent (d : Node) :
    Clip.clip (Clip.clip d) = Clip.clip d ∧
    Clip.getParagraph (Clip.clip d) = Clip.getParagraph d := by
  have hg : ∀ (s : String) (p : Path) (a : Attrs),
      matchesSel s (Clip.clipAttrs (Clip.getParagraph d) (children d (jq d ".diff") none) p a)
        = matchesSel s a := fun s p a => clipAttrs_matchesSel _ _ s p a
  have hp : Clip.getParagraph (Clip.clip d) = Clip.getParagraph d := by
    rw [clip_eq_mapAttrs d]; exact getParagraph_mapAttrs d _ hg
  refine ⟨?_, hp⟩
  rw [clip_eq_mapAttrs (Clip.clip d), hp]
  rw [clip_eq_mapAttrs d, jq_mapAttrs d _ ".diff" (hg ".diff"), children_mapAttrs d _ none hg,
    mapAttrs_mapAttrs]
  congr 1
  funext q a
  exact clipAttrs_clipAttrs _ _ q a

/-! ## Span variant: the selector -/

section Span

open DiffsClip

theorem text_attached (s : Page) (e : Path) : s.text (.attached e) = textOf s.doc e := rfl

theorem text_new_span (d : Node) (xs ys : List Node) :
    jsLength ((⟨d, xs ++ emptySpan :: ys⟩ : Page).text (.detached xs.length)) = 0 := by
  have hx : (xs ++ emptySpan :: ys)[xs.length]? = some emptySpan := by
    rw [List.getElem?_append_right (le_refl _)]; simp
  simp only [Page.text, Page.node?, hx]
  rfl

theorem span_fold_cases (s : Page) (l : List Path) : ∀ h0 : Handle,
    (l.foldl (step s) h0 = h0 ∧
      ∀ x ∈ l, jsLength (textOf s.doc x) ≤ jsLength (s.text h0)) ∨
    (∃ pre e post, l = pre ++ e :: post ∧ l.foldl (step s) h0 = .attached e ∧
      jsLength (s.text h0) < jsLength (textOf s.doc e) ∧
      (∀ x ∈ pre, jsLength (textOf s.doc x) < jsLength (textOf s.doc e)) ∧
      (∀ x ∈ post, jsLength (textOf s.doc x) ≤ jsLength (textOf s.doc e))) := by
  induction l with
  | nil => intro h0; left; simp
  | cons a l ih =>
    intro h0
    simp only [List.foldl_cons]
    by_cases h : jsLength (s.text (.attached a)) > jsLength (s.text h0)
    · have hs : step s h0 a = .attached a := by simp [step, h]
      rw [hs]
      rw [text_attached] at h
      rcases ih (.attached a) with ⟨h1, h2⟩ | ⟨pre, e, post, hl, hf, hlt, hpre, hpost⟩
      · right; exact ⟨[], a, l, rfl, h1, h, by simp, h2⟩
      · right
        rw [text_attached] at hlt
        refine ⟨a :: pre, e, post, by simp [hl], hf, by omega, ?_, hpost⟩
        intro x hx
        rcases List.mem_cons.mp hx with rfl | hx
        · exact hlt
        · exact hpre x hx
    · have hs : step s h0 a = h0 := by simp [step, h]
      rw [hs]
      rw [text_attached] at h
      rcases ih h0 with ⟨h1, h2⟩ | ⟨pre, e, post, hl, hf, hlt, hpre, hpost⟩
      · left
        refine ⟨h1, ?_⟩
        intro x hx
        rcases List.mem_cons.mp hx with rfl | hx
        · omega
        · exact h2 x hx
      · right
        refine ⟨a :: pre, e, post, by simp [hl], hf, hlt, ?_, hpost⟩
        intro x hx
        rcases List.mem_cons.mp hx with rfl | hx
        · omega
        · exact hpre x hx

theorem getLongest_snd (name : String) (s : Page) :
    (getLongest name s).2 = ⟨s.doc, s.detached ++ [emptySpan]⟩ := rfl

theorem getLongest_cases (name : String) (s : Page) :
    ((getLongest name s).1 = .detached s.detached.length ∧
      ∀ x ∈ jq s.doc name, jsLength (textOf s.doc x) = 0) ∨
    (∃ pre e post, jq s.doc name = pre ++ e :: post ∧ (getLongest name s).1 = .attached e ∧
      0 < jsLength (textOf s.doc e) ∧
      (∀ x ∈ pre, jsLength (textOf s.doc x) < jsLength (textOf s.doc e)) ∧
      (∀ x ∈ post, jsLength (textOf s.doc x) ≤ jsLength (textOf s.doc e))) := by
  have h0 := text_new_span s.doc s.detached []
  rcases span_fold_cases ⟨s.doc, s.detached ++ [emptySpan]⟩ (jq s.doc name)
      (.detached s.detached.length) with ⟨h1, h2⟩ | ⟨pre, e, post, hl, hf, hlt, hpre, hpost⟩
  · left
    refine ⟨h1, fun x hx => ?_⟩
    have := h2 x hx
    simp only [h0] at this
    omega
  · right
    exact ⟨pre, e, post, hl, hf, Nat.lt_of_le_of_lt (Nat.zero_le _) hlt, hpre, hpost⟩

theorem getFocus_unfold (s : Page) :
    getFocus s =
      if jsLength ((getLongest "del" (getLongest "ins" s).2).2.text (getLongest "ins" s).1)
          > jsLength ((getLongest "del" (getLongest "ins" s).2).2.text
              (getLongest "del" (getLongest "ins" s).2).1)
      then ((getLongest "ins" s).1, (getLongest "del" (getLongest "ins" s).2).2)
      else ((getLongest "del" (getLongest "ins" s).2).1,
            (getLongest "del" (getLongest "ins" s).2).2) := rfl

theorem getFocus_snd (s : Page) :
    (getFocus s).2 = ⟨s.doc, s.detached ++ [emptySpan, emptySpan]⟩ := by
  rw [getFocus_unfold]
  split_ifs <;> simp [getLongest_snd]

/-- What `getLongest` returns, with the text length the comparison of `getFocus`
reads off it in the page `t` reached after both reductions. -/
theorem longest_summary (name : String) (s t : DiffsClip.Page) (ys : List Node)
    (ht : t = ⟨s.doc, s.detached ++ DiffsClip.emptySpan :: ys⟩) :
    (∀ x ∈ jq s.doc name,
      jsLength (textOf s.doc x) ≤ jsLength (t.text (DiffsClip.getLongest name s).1)) ∧
    (((DiffsClip.getLongest name s).1 = .detached s.detached.length ∧
        jsLength (t.text (DiffsClip.getLongest name s).1) = 0) ∨
      (∃ e ∈ jq s.doc name, (DiffsClip.getLongest name s).1 = .attached e ∧
        jsLength (t.text (DiffsClip.getLongest name s).1) = jsLength (textOf s.doc e) ∧
        0 < jsLength (textOf s.doc e))) := by
  subst ht
  rcases getLongest_cases name s with ⟨h1, h2⟩ | ⟨pre, e, post, hl, hf, hpos, hpre, hpost⟩
  · rw [h1]
    have h0 := text_new_span s.doc s.detached ys
    exact ⟨fun x hx => by rw [h2 x hx]; exact Nat.zero_le _, Or.inl ⟨rfl, h0⟩⟩
  · rw [hf]
    refine ⟨fun x hx => ?_, Or.inr ⟨e, by simp [hl], rfl, rfl, hpos⟩⟩
    rw [text_attached]
    rw [hl] at hx
    rcases List.mem_append.mp hx with hx | hx
    · exact le_of_lt (hpre x hx)
    · rcases List.mem_cons.mp hx with rfl | hx
      · exact le_refl _
      · exact hpost x hx

theorem ins_not_del (d : Node) (e : Path) (hi : e ∈ jq d "ins") (hd : e ∈ jq d "del") : False := by
  obtain ⟨a, cs, ha, hpa⟩ := mem_select _ d e hi
  obtain ⟨b, cs', hb, hpb⟩ := mem_select _ d e hd
  rw [ha] at hb
  cases hb
  rw [matchesSel_ins] at hpa
  rw [matchesSel_del] at hpb
  simp only [decide_eq_true_eq] at hpa hpb
  rw [hpa] at hpb
  exact absurd hpb (by decide)

theorem ins_summary (s : Page) :
    (∀ x ∈ jq s.doc "ins", jsLength (textOf s.doc x)
      ≤ jsLength ((getLongest "del" (getLongest "ins" s).2).2.text (getLongest "ins" s).1)) ∧
    (((getLongest "ins" s).1 = .detached s.detached.length ∧
        jsLength ((getLongest "del" (getLongest "ins" s).2).2.text (getLongest "ins" s).1) = 0) ∨
      (∃ e ∈ jq s.doc "ins", (getLongest "ins" s).1 = .attached e ∧
        jsLength ((getLongest "del" (getLongest "ins" s).2).2.text (getLongest "ins" s).1)
          = jsLength (textOf s.doc e) ∧
        0 < jsLength (textOf s.doc e))) :=
  longest_summary "ins" s (getLongest "del" (getLongest "ins" s).2).2 [emptySpan]
    (by simp [getLongest_snd])

theorem del_summary (s : Page) :
    (∀ x ∈ jq s.doc "del", jsLength (textOf s.doc x)
      ≤ jsLength ((getLongest "del" (getLongest "ins" s).2).2.text
          (getLongest "del" (getLongest "ins" s).2).1)) ∧
    (((getLongest "del" (getLongest "ins" s).2).1 = .detached (s.detached.length + 1) ∧
        jsLength ((getLongest "del" (getLongest "ins" s).2).2.text
          (getLongest "del" (getLongest "ins" s).2).1) = 0) ∨
      (∃ e ∈ jq s.doc "del", (getLongest "del" (getLongest "ins" s).2).1 = .attached e ∧
        jsLength ((getLongest "del" (getLongest "ins" s).2).2.text
          (getLongest "del" (getLongest "ins" s).2).1) = jsLength (textOf s.doc e) ∧
        0 < jsLength (textOf s.doc e))) := by
  have h := longest_summary "del" (getLongest "ins" s).2
    (getLongest "del" (getLongest "ins" s).2).2 [] (by simp [getLongest_snd])
  simpa [getLongest_snd] using h

theorem winners_differ (s : Page) :
    (getLongest "ins" s).1 ≠ (getLongest "del" (getLongest "ins" s).2).1 := by
  intro heq
  rcases (ins_summary s).2 with ⟨h1, _⟩ | ⟨e, he, h1, _⟩ <;>
    rcases (del_summary s).2 with ⟨h2, _⟩ | ⟨e', he', h2, _⟩ <;>
    rw [h1, h2] at heq
  · simp at heq
  · cases heq
  · cases heq
  · cases heq
    exact ins_not_del s.doc e he he'

/-- C3, as amended. `getFocus` returns the insertion winner exactly when its text is
strictly longer than that of the deletion winner, and the deletion winner otherwise.
When the two lengths are equal the deletion winner is returned: it is a `del` mark
of the document when that length is positive, and the placeholder span created by
the second reduction when that length is 0. -/
theorem getFocus_ins_iff_strictly_longer (s : DiffsClip.Page) :
    ((DiffsClip.getFocus s).1 = (DiffsClip.getLongest "ins" s).1 ↔
      jsLength ((DiffsClip.getFocus s).2.text (DiffsClip.getLongest "ins" s).1)
        > jsLength ((DiffsClip.getFocus s).2.text
            (DiffsClip.getLongest "del" (DiffsClip.getLongest "ins" s).2).1)) ∧
    ((DiffsClip.getFocus s).1 ≠ (DiffsClip.getLongest "ins" s).1 →
      (DiffsClip.getFocus s).1 = (DiffsClip.getLongest "del" (DiffsClip.getLongest "ins" s).2).1) ∧
    (jsLength ((DiffsClip.getFocus s).2.text (DiffsClip.getLongest "ins" s).1)
        = jsLength ((DiffsClip.getFocus s).2.text
            (DiffsClip.getLongest "del" (DiffsClip.getLongest "ins" s).2).1) →
      (DiffsClip.getFocus s).1
        = (DiffsClip.getLongest "del" (DiffsClip.getLongest "ins" s).2).1) ∧
    (jsLength ((DiffsClip.getFocus s).2.text (DiffsClip.getLongest "ins" s).1)
        = jsLength ((DiffsClip.getFocus s).2.text
            (DiffsClip.getLongest "del" (DiffsClip.getLongest "ins" s).2).1) →
      0 < jsLength ((DiffsClip.getFocus s).2.text
            (DiffsClip.getLongest "del" (DiffsClip.getLongest "ins" s).2).1) →
      ∃ p ∈ jq s.doc "del", (DiffsClip.getFocus s).1 = .attached p ∧
        jsLength (textOf s.doc p)
          = jsLength ((DiffsClip.getFocus s).2.text
              (DiffsClip.getLongest "del" (DiffsClip.getLongest "ins" s).2).1)) ∧
    (jsLength ((DiffsClip.getFocus s).2.text (DiffsClip.getLongest "ins" s).1)
        = jsLength ((DiffsClip.getFocus s).2.text
            (DiffsClip.getLongest "del" (DiffsClip.getLongest "ins" s).2).1) →
      jsLength ((DiffsClip.getFocus s).2.text
            (DiffsClip.getLongest "del" (DiffsClip.getLongest "ins" s).2).1) = 0 →
      (DiffsClip.getFocus s).1 = .detached (s.detached.length + 1)) := by
  have h2 : (DiffsClip.getFocus s).2 = (DiffsClip.getLongest "del" (DiffsClip.getLongest "ins" s).2).2 := by
    rw [getFocus_unfold]; split_ifs <;> rfl
  rw [h2]
  have hne := winners_differ s
  by_cases hgt : jsLength ((DiffsClip.getLongest "del" (DiffsClip.getLongest "ins" s).2).2.text
        (DiffsClip.getLongest "ins" s).1)
      > jsLength ((DiffsClip.getLongest "del" (DiffsClip.getLongest "ins" s).2).2.text
          (DiffsClip.getLongest "del" (DiffsClip.getLongest "ins" s).2).1)
  · have h1 : (DiffsClip.getFocus s).1 = (DiffsClip.getLongest "ins" s).1 := by
      rw [getFocus_unfold, if_pos hgt]
    refine ⟨⟨fun _ => hgt, fun _ => h1⟩, fun h => absurd h1 h, fun h => ?_, fun h => ?_,
      fun h => ?_⟩
    · omega
    · omega
    · omega
  · have h1 : (DiffsClip.getFocus s).1
        = (DiffsClip.getLongest "del" (DiffsClip.getLongest "ins" s).2).1 := by
      rw [getFocus_unfold, if_neg hgt]
    refine ⟨⟨fun h => ?_, fun h => absurd h hgt⟩, fun _ => h1, fun _ => h1, fun _ hpos => ?_,
      fun _ hz => ?_⟩
    · rw [h1] at h
      exact absurd h.symm hne
    · rcases (del_summary s).2 with ⟨_, hz⟩ | ⟨e, he, hde, hlen, _⟩
      · omega
      · exact ⟨e, he, by rw [h1, hde], hlen.symm⟩
    · rcases (del_summary s).2 with ⟨hde, _⟩ | ⟨e, _, _, hlen, hpos⟩
      · rw [h1, hde]
      · omega

/-- Example 3: with an `ins` and a `del` of length 4 each, the `del` is returned. -/
theorem getFocus_ins_iff_strictly_longer_witness :
    (DiffsClip.getLongest "ins" ⟨docTie, []⟩).1 = .attached [0, 0] ∧
    (DiffsClip.getFocus ⟨docTie, []⟩).1 = .attached [0, 1] ∧
    (DiffsClip.getFocus ⟨docTie, []⟩).1
      = (DiffsClip.getLongest "del" (DiffsClip.getLongest "ins" ⟨docTie, []⟩).2).1 ∧
    ∃ p ∈ jq docTie "del", (DiffsClip.getFocus ⟨docTie, []⟩).1 = .attached p ∧
      jsLength (textOf docTie p)
        = jsLength ((DiffsClip.getFocus ⟨docTie, []⟩).2.text
            (DiffsClip.getLongest "del" (DiffsClip.getLongest "ins" ⟨docTie, []⟩).2).1) :=
  ⟨by decide, by decide, (getFocus_ins_iff_strictly_longer ⟨docTie, []⟩).2.2.1 (by decide),
    (getFocus_ins_iff_strictly_longer ⟨docTie, []⟩).2.2.2.1 (by decide) (by decide)⟩

/-- C3 as stated fails: in `docBothEmpty` the longest `ins` and the longest `del`
have the same text length, 0, and `getFocus` returns the detached placeholder of the
second reduction, not the `del` mark. -/
theorem getFocus_tie_counterexample :
    jq docBothEmpty "ins" = [[0, 0]] ∧ jq docBothEmpty "del" = [[0, 1]] ∧
    jsLength (textOf docBothEmpty [0, 0]) = jsLength (textOf docBothEmpty [0, 1]) ∧
    (DiffsClip.getFocus ⟨docBothEmpty, []⟩).1 = .detached 1 ∧
    (DiffsClip.getFocus ⟨docBothEmpty, []⟩).1 ≠ .attached [0, 1] := by
  decide

/-- C4, as amended. When some `ins` or `del` mark has non-empty text, `getFocus`
returns a mark of the document, an `ins` or a `del`, whose text is at least as long
as that of every `ins` and every `del` mark. -/
theorem getFocus_longest_mark (s : DiffsClip.Page)
    (h : ∃ q, (q ∈ jq s.doc "ins" ∨ q ∈ jq s.doc "del") ∧ 0 < jsLength (textOf s.doc q)) :
    ∃ p, (DiffsClip.getFocus s).1 = .attached p ∧ (p ∈ jq s.doc "ins" ∨ p ∈ jq s.doc "del") ∧
      ∀ q, (q ∈ jq s.doc "ins" ∨ q ∈ jq s.doc "del") →
        jsLength (textOf s.doc q) ≤ jsLength (textOf s.doc p) := by
  obtain ⟨hiAll, hi⟩ := ins_summary s
  obtain ⟨hdAll, hd⟩ := del_summary s
  obtain ⟨q0, hq0, hpos⟩ := h
  by_cases hgt : jsLength ((DiffsClip.getLongest "del" (DiffsClip.getLongest "ins" s).2).2.text
        (DiffsClip.getLongest "ins" s).1)
      > jsLength ((DiffsClip.getLongest "del" (DiffsClip.getLongest "ins" s).2).2.text
          (DiffsClip.getLongest "del" (DiffsClip.getLongest "ins" s).2).1)
  · have h1 : (DiffsClip.getFocus s).1 = (DiffsClip.getLongest "ins" s).1 := by
      rw [getFocus_unfold, if_pos hgt]
    rcases hi with ⟨_, hz⟩ | ⟨e, he, h1e, hlen, _⟩
    · omega
    · refine ⟨e, by rw [h1, h1e], Or.inl he, ?_⟩
      intro q hq
      rcases hq with hq | hq
      · have := hiAll q hq; omega
      · have := hdAll q hq; omega
  · have h1 : (DiffsClip.getFocus s).1
        = (DiffsClip.getLongest "del" (DiffsClip.getLongest "ins" s).2).1 := by
      rw [getFocus_unfold, if_neg hgt]
    rcases hd with ⟨_, hz⟩ | ⟨e, he, h1e, hlen, _⟩
    · rcases hq0 with hq | hq
      · have := hiAll q0 hq; omega
      · have := hdAll q0 hq; omega
    · refine ⟨e, by rw [h1, h1e], Or.inr he, ?_⟩
      intro q hq
      rcases hq with hq | hq
      · have := hiAll q hq; omega
      · have := hdAll q hq; omega

/-- On Example 1 the `ins` holding `hello` has text, so a longest mark is returned. -/
theorem getFocus_longest_mark_witness :
    (DiffsClip.getFocus ⟨docAB, []⟩).1 = .attached [0, 0, 0] ∧
    ∃ p, (DiffsClip.getFocus ⟨docAB, []⟩).1 = .attached p ∧
      (p ∈ jq docAB "ins" ∨ p ∈ jq docAB "del") ∧
      ∀ q, (q ∈ jq docAB "ins" ∨ q ∈ jq docAB "del") →
        jsLength (textOf docAB q) ≤ jsLength (textOf docAB p) :=
  ⟨by decide,
    getFocus_longest_mark ⟨docAB, []⟩ ⟨[0, 0, 0], Or.inl (by decide), by decide⟩⟩

/-- C4 as stated fails: `docEmptyIns` contains an `ins` mark, and `getFocus` returns
a detached placeholder, not a mark of the document. -/
theorem getFocus_placeholder_counterexample :
    jq docEmptyIns "ins" = [[0, 0]] ∧
    (DiffsClip.getFocus ⟨docEmptyIns, []⟩).1 = .detached 1 ∧
    ¬ ∃ p, (DiffsClip.getFocus ⟨docEmptyIns, []⟩).1 = .attached p := by
  refine ⟨by decide, by decide, ?_⟩
  rintro ⟨p, hp⟩
  have h0 : (DiffsClip.getFocus ⟨docEmptyIns, []⟩).1 = .detached 1 := by decide
  rw [h0] at hp
  cases hp

/-! ## Span variant: the selection read on the document alone -/

theorem span_fold_mark (s : Page) (l : List Path) : ∀ (h0 : Handle) (o : Option Path),
    h0.mark? = o → jsLength (s.text h0) = markLength s.doc o →
    (l.foldl (step s) h0).mark?
      = l.foldl (fun best e =>
          if jsLength (textOf s.doc e) > markLength s.doc best then some e else best) o := by
  induction l with
  | nil => intro h0 o hm _; simpa using hm
  | cons a l ih =>
    intro h0 o hm hlen
    simp only [List.foldl_cons]
    by_cases h : jsLength (textOf s.doc a) > markLength s.doc o
    · have hs : step s h0 a = .attached a := by
        simp only [step, text_attached, hlen, h, if_true]
      rw [hs, if_pos h]
      exact ih (.attached a) (some a) rfl rfl
    · have hs : step s h0 a = h0 := by
        simp only [step, text_attached, hlen, h, if_false]
      rw [hs, if_neg h]
      exact ih h0 o hm hlen

theorem getLongest_mark (name : String) (s : Page) :
    (getLongest name s).1.mark? = longestMark s.doc name :=
  span_fold_mark ⟨s.doc, s.detached ++ [emptySpan]⟩ (jq s.doc name)
    (.detached s.detached.length) none rfl (text_new_span s.doc s.detached [])

theorem getFocus_mark (s : Page) : (getFocus s).1.mark? = focusMark s.doc := by
  have hi : jsLength ((getLongest "del" (getLongest "ins" s).2).2.text (getLongest "ins" s).1)
      = markLength s.doc (longestMark s.doc "ins") := by
    rw [← getLongest_mark "ins" s]
    rcases (ins_summary s).2 with ⟨h1, hz⟩ | ⟨e, _, h1, hlen, _⟩
    · rw [hz, h1]; rfl
    · rw [hlen, h1]; rfl
  have hd : jsLength ((getLongest "del" (getLongest "ins" s).2).2.text
        (getLongest "del" (getLongest "ins" s).2).1)
      = markLength s.doc (longestMark s.doc "del") := by
    have hm := getLongest_mark "del" (getLongest "ins" s).2
    simp only [getLongest_snd] at hm
    rw [← hm]
    rcases (del_summary s).2 with ⟨h1, hz⟩ | ⟨e, _, h1, hlen, _⟩
    · rw [hz]; simp only [getLongest_snd] at h1; rw [h1]; rfl
    · rw [hlen]; simp only [getLongest_snd] at h1; rw [h1]; rfl
  rw [getFocus_unfold, hi, hd, focusMark]
  split_ifs
  · exact getLongest_mark "ins" s
  · exact getLongest_mark "del" (getLongest "ins" s).2

theorem clip_unfold (s : Page) : clip s = (getFocus s).2.addClass (getFocus s).1 "keep" := rfl

theorem clip_doc (s : Page) :
    (clip s).doc = match focusMark s.doc with
      | some p => update [p] (addClassAttr "keep") s.doc
      | none => s.doc := by
  rw [clip_unfold, ← getFocus_mark]
  have h2 := getFocus_snd s
  cases hf : (getFocus s).1 with
  | attached p => simp only [Page.addClass, Handle.mark?, h2]
  | detached i =>
    simp only [Page.addClass, Handle.mark?]
    split <;> simp [h2]

theorem addClassAttr_tag (c : String) (a : Attrs) : (addClassAttr c a).tag = a.tag := rfl

theorem addClassAttr_addClassAttr (c : String) (a : Attrs) :
    addClassAttr c (addClassAttr c a) = addClassAttr c a := by
  by_cases h : c ∈ a.classes <;> simp [addClassAttr, h]

theorem mem_addClassAttr (c : String) (a : Attrs) : c ∈ (addClassAttr c a).classes := by
  by_cases h : c ∈ a.classes <;> simp [addClassAttr, h]

theorem longestMark_mapAttrs (d : Node) (g : Path → Attrs → Attrs)
    (hg : ∀ p a, (g p a).tag = a.tag) (name : String)
    (hn : ∀ a, matchesSel name a = decide (a.tag = name)) :
    longestMark (d.mapAttrs g) name = longestMark d name := by
  have hm : markLength (d.mapAttrs g) = markLength d := by
    funext o; cases o <;> simp [markLength, textOf_mapAttrs]
  have hj : jq (d.mapAttrs g) name = jq d name :=
    jq_mapAttrs d g name (fun p a => by rw [hn, hn, hg])
  simp only [longestMark, hm, hj, textOf_mapAttrs]

theorem focusMark_mapAttrs (d : Node) (g : Path → Attrs → Attrs)
    (hg : ∀ p a, (g p a).tag = a.tag) : focusMark (d.mapAttrs g) = focusMark d := by
  have hm : markLength (d.mapAttrs g) = markLength d := by
    funext o; cases o <;> simp [markLength, textOf_mapAttrs]
  simp only [focusMark, hm, longestMark_mapAttrs d g hg "ins" matchesSel_ins,
    longestMark_mapAttrs d g hg "del" matchesSel_del]

/-! ## Span variant: the applier -/

theorem getFocus_handle (s : Page) :
    (getFocus s).1 = .detached s.detached.length ∨
    (getFocus s).1 = .detached (s.detached.length + 1) ∨
    ∃ e, (getFocus s).1 = .attached e ∧ (e ∈ jq s.doc "ins" ∨ e ∈ jq s.doc "del") := by
  rw [getFocus_unfold]
  split_ifs
  · rcases (ins_summary s).2 with ⟨h1, _⟩ | ⟨e, he, h1, _⟩
    · exact Or.inl h1
    · exact Or.inr (Or.inr ⟨e, h1, Or.inl he⟩)
  · rcases (del_summary s).2 with ⟨h1, _⟩ | ⟨e, he, h1, _⟩
    · exact Or.inr (Or.inl h1)
    · exact Or.inr (Or.inr ⟨e, h1, Or.inr he⟩)

theorem take_set_beyond (xs ys : List Node) (i : Nat) (v : Node) (h : xs.length ≤ i) :
    ((xs ++ ys).set i v).take xs.length = xs := by
  rw [List.set_take, List.take_left, List.set_eq_of_length_le h]

theorem keep_on_new_span (d : Node) (xs : List Node) (i : Nat)
    (hi : (xs ++ [emptySpan, emptySpan])[i]? = some emptySpan) :
    ∃ a, (Page.addClass ⟨d, xs ++ [emptySpan, emptySpan]⟩ (.detached i) "keep").attrsOf
        (.detached i) = some a ∧ "keep" ∈ a.classes := by
  have hlt : i < (xs ++ [emptySpan, emptySpan]).length := by
    rcases List.getElem?_eq_some.mp hi with ⟨h, _⟩
    exact h
  refine ⟨addClassAttr "keep" ⟨"span", [], [], false⟩, ?_, mem_addClassAttr _ _⟩
  simp only [Page.addClass, hi, Page.attrsOf, Page.node?]
  rw [List.getElem?_set_self hlt]
  rfl

/-- C8. The span `clip` changes no text, and changes the attributes of no document
element except the one returned by `getFocus`, to which it adds the class `keep`;
tag, style and visibility of every element stay as they were, the element behind
the returned handle carries `keep` afterwards, and the detached elements that
existed before are untouched. -/
theorem clip_adds_keep_to_focus_only (s : DiffsClip.Page) (q : Path) :
    textAt (DiffsClip.clip s).doc q = textAt s.doc q ∧
    attrsAt (DiffsClip.clip s).doc q
      = (if (DiffsClip.getFocus s).1 = .attached q
         then (attrsAt s.doc q).map (addClassAttr "keep") else attrsAt s.doc q) ∧
    (attrsAt (DiffsClip.clip s).doc q).map (fun a => (a.tag, a.style, a.hidden))
      = (attrsAt s.doc q).map (fun a => (a.tag, a.style, a.hidden)) ∧
    (∃ a, (DiffsClip.clip s).attrsOf (DiffsClip.getFocus s).1 = some a ∧ "keep" ∈ a.classes) ∧
    (DiffsClip.clip s).detached.take s.detached.length = s.detached := by
  have h2 := getFocus_snd s
  have hattr : attrsAt (DiffsClip.clip s).doc q
      = (if (DiffsClip.getFocus s).1 = .attached q
         then (attrsAt s.doc q).map (addClassAttr "keep") else attrsAt s.doc q) := by
    rw [clip_unfold]
    cases hf : (DiffsClip.getFocus s).1 with
    | attached p =>
      simp only [DiffsClip.Page.addClass, h2, update, attrsAt_mapAttrs, List.mem_singleton,
        DiffsClip.Handle.attached.injEq]
      by_cases hqp : q = p
      · subst hqp; simp
      · have hpq : ¬ p = q := fun h => hqp h.symm
        simp [hqp, hpq]
    | detached i =>
      simp only [DiffsClip.Page.addClass, reduceCtorEq, if_false]
      split <;> simp [h2]
  refine ⟨?_, hattr, ?_, ?_, ?_⟩
  · rw [clip_doc]
    split
    · exact textAt_mapAttrs _ _ q
    · rfl
  · rw [hattr]
    split_ifs
    · cases attrsAt s.doc q <;> simp [addClassAttr]
    · rfl
  · rw [clip_unfold]
    rcases getFocus_handle s with h | h | ⟨e, h, he⟩
    · rw [h, h2]
      exact keep_on_new_span s.doc s.detached _ (by
        rw [List.getElem?_append_right (le_refl _)]; simp)
    · rw [h, h2]
      exact keep_on_new_span s.doc s.detached _ (by
        rw [List.getElem?_append_right (Nat.le_succ _)]; simp)
    · have hv : ∃ a cs, s.doc.getAt e = some (.elem a cs) := by
        rcases he with he | he
        · obtain ⟨a, cs, ha, _⟩ := mem_select _ s.doc e he; exact ⟨a, cs, ha⟩
        · obtain ⟨a, cs, ha, _⟩ := mem_select _ s.doc e he; exact ⟨a, cs, ha⟩
      obtain ⟨a, cs, ha⟩ := hv
      refine ⟨addClassAttr "keep" a, ?_, mem_addClassAttr _ _⟩
      rw [h]
      simp only [DiffsClip.Page.addClass, DiffsClip.Page.attrsOf, DiffsClip.Page.node?, h2,
        update, getAt_mapAttrs, ha]
      simp [Node.mapAttrs, Node.attrs?]
  · rw [clip_unfold]
    rcases getFocus_handle s with h | h | ⟨e, h, _⟩
    · rw [h, h2]
      simp only [DiffsClip.Page.addClass]
      split
      · exact take_set_beyond _ _ _ _ (le_refl _)
      · simp
    · rw [h, h2]
      simp only [DiffsClip.Page.addClass]
      split
      · exact take_set_beyond _ _ _ _ (Nat.le_succ _)
      · simp
    · rw [h, h2]
      simp [DiffsClip.Page.addClass]

/-- C9. Running the span `clip` twice leaves the same document as running it once,
the same elements carry the class `keep`, and `getFocus` selects the same mark of
the document (or a placeholder in both cases) after `clip` as before. -/
theorem span_clip_idempotent (s : DiffsClip.Page) :
    (DiffsClip.clip (DiffsClip.clip s)).doc = (DiffsClip.clip s).doc ∧
    jq (DiffsClip.clip (DiffsClip.clip s)).doc ".keep" = jq (DiffsClip.clip s).doc ".keep" ∧
    (DiffsClip.getFocus (DiffsClip.clip s)).1.mark? = (DiffsClip.getFocus s).1.mark? := by
  have hfm : DiffsClip.focusMark (DiffsClip.clip s).doc = DiffsClip.focusMark s.doc := by
    rw [clip_doc s]
    split
    · exact focusMark_mapAttrs _ _ (fun p a => by split_ifs <;> rfl)
    · rfl
  have hdoc : (DiffsClip.clip (DiffsClip.clip s)).doc = (DiffsClip.clip s).doc := by
    rw [clip_doc (DiffsClip.clip s), hfm]
    cases hm : DiffsClip.focusMark s.doc with
    | none => rfl
    | some p =>
      simp only
      rw [clip_doc s, hm]
      simp only [update, mapAttrs_mapAttrs]
      congr 1
      funext q a
      split_ifs
      · exact addClassAttr_addClassAttr _ _
      · rfl
  exact ⟨hdoc, by rw [hdoc], by rw [getFocus_mark, getFocus_mark, hfm]⟩

end Span

/-! ## Text length -/

theorem utf16Units_pos (c : Char) : 0 < utf16Units c := by
  simp only [utf16Units]; split_ifs <;> omega

theorem jsLength_eq_zero (s : String) : jsLength s = 0 ↔ s = "" := by
  obtain ⟨l⟩ := s
  cases l with
  | nil => simp [jsLength]
  | cons c l =>
    have := utf16Units_pos c
    simp only [jsLength, List.map_cons, List.sum_cons]
    constructor
    · intro h; omega
    · intro h
      have hl := congrArg String.length h
      simp [String.length] at hl

theorem units_sum (l : List Char) :
    (l.map utf16Units).sum
      = l.length + (l.filter (fun c => !decide (c.val < 0x10000))).length := by
  induction l with
  | nil => rfl
  | cons c l ih =>
    by_cases hc : c.val < 0x10000
    · simp only [List.map_cons, List.sum_cons, utf16Units, hc, if_true, ih, List.length_cons,
        List.filter_cons, decide_True, Bool.not_true, Bool.false_eq_true, if_false]
      omega
    · simp only [List.map_cons, List.sum_cons, utf16Units, hc, if_false, ih, List.length_cons,
        List.filter_cons, decide_False, Bool.not_false, if_true]
      omega

theorem jsLength_eq (s : String) : jsLength s = s.length + astralCount s := by
  obtain ⟨l⟩ := s
  exact units_sum l

theorem astralCount_eq_zero (s : String) : astralCount s = 0 ↔ ∀ c ∈ s.data, c.val < 0x10000 := by
  simp [astralCount, List.filter_eq_nil_iff]

theorem mark?_eq_some (h : DiffsClip.Handle) (p : Path) :
    h.mark? = some p ↔ h = .attached p := by
  cases h <;> simp [DiffsClip.Handle.mark?]

theorem focusMark_markDoc (t u : String) :
    DiffsClip.focusMark (markDoc t u) = some [0, 0] ↔ jsLength t > jsLength u := by
  have hi : jq (markDoc t u) "ins" = [[0, 0]] := rfl
  have hd : jq (markDoc t u) "del" = [[0, 1]] := rfl
  have ht : textOf (markDoc t u) [0, 0] = t := by
    simp [textOf, markDoc, el, Node.getAt, Node.text, textAll]
  have hu : textOf (markDoc t u) [0, 1] = u := by
    simp [textOf, markDoc, el, Node.getAt, Node.text, textAll]
  simp only [DiffsClip.focusMark, DiffsClip.longestMark, hi, hd, List.foldl_cons, List.foldl_nil,
    DiffsClip.markLength, ht, hu]
  by_cases h1 : jsLength t > 0 <;> by_cases h2 : jsLength u > 0 <;>
    simp only [h1, h2, if_true, if_false, DiffsClip.markLength, ht, hu]
  · split_ifs with h3 <;> simp [h3]
  · have : jsLength t > jsLength u := by omega
    simp [h1, this]
  · have : ¬ jsLength t > jsLength u := by omega
    simp [this]
  · have : ¬ jsLength t > jsLength u := by omega
    simp [this]

/-- C11, as amended. The length that `count` and `getFocus` use for a mark text is
its number of UTF-16 code units: the number of code points plus the number of code
points outside the Basic Multilingual Plane, hence the number of code points exactly
when the text has no such character. -/
theorem mark_length_counts_utf16_units (t u : String) (ds : List Node) :
    Clip.count (markDoc t u) [0] "ins" = (jsLength t : Int) ∧
    Clip.count (markDoc t u) [0] "del" = (jsLength u : Int) ∧
    ((DiffsClip.getFocus ⟨markDoc t u, ds⟩).1 = .attached [0, 0] ↔ jsLength t > jsLength u) ∧
    jsLength t = t.length + astralCount t ∧
    (jsLength t = t.length ↔ ∀ c ∈ t.data, c.val < 0x10000) := by
  refine ⟨?_, ?_, ?_, jsLength_eq t, ?_⟩
  · rw [count_eq_sum (markDoc t u) [0] ⟨"p", [], [], false⟩
      [el "ins" [.textNode t], el "del" [.textNode u]] rfl "ins" matchesSel_ins]
    simp [directLengths, el, Node.text, textAll]
  · rw [count_eq_sum (markDoc t u) [0] ⟨"p", [], [], false⟩
      [el "ins" [.textNode t], el "del" [.textNode u]] rfl "del" matchesSel_del]
    simp [directLengths, el, Node.text, textAll]
  · rw [← mark?_eq_some, getFocus_mark]
    exact focusMark_markDoc t u
  · rw [jsLength_eq, ← astralCount_eq_zero]
    omega

/-- C11 as stated fails: the `ins` text U+1F600 is one code point and `count` adds 2
for it; against a `del` of one code point too, a tie in code points, `getFocus`
returns the `ins`. -/
theorem code_point_length_counterexample :
    (textOf (markDoc grin "a") [0, 0]).length = 1 ∧
    Clip.count (markDoc grin "a") [0] "ins" = 2 ∧
    (textOf (markDoc grin "a") [0, 1]).length = 1 ∧
    (DiffsClip.getFocus ⟨markDoc grin "a", []⟩).1 = .attached [0, 0] := by
  decide

/-- C12. In a document without `ins` and `del` marks both reductions return their
own new placeholder span, `getFocus` returns the second one, an existing detached
element, and `clip` leaves the document as it was. -/
theorem span_clip_without_marks (s : DiffsClip.Page)
    (hi : jq s.doc "ins" = []) (hd : jq s.doc "del" = []) :
    (DiffsClip.getLongest "ins" s).1 = .detached s.detached.length ∧
    (DiffsClip.getLongest "del" (DiffsClip.getLongest "ins" s).2).1
      = .detached (s.detached.length + 1) ∧
    (DiffsClip.getFocus s).1 = .detached (s.detached.length + 1) ∧
    (DiffsClip.getFocus s).2.node? (DiffsClip.getFocus s).1 = some DiffsClip.emptySpan ∧
    (DiffsClip.clip s).doc = s.doc := by
  have h1 : (DiffsClip.getLongest "ins" s).1 = .detached s.detached.length := by
    rcases (ins_summary s).2 with ⟨h, _⟩ | ⟨e, he, _⟩
    · exact h
    · rw [hi] at he; cases he
  have h2 : (DiffsClip.getLongest "del" (DiffsClip.getLongest "ins" s).2).1
      = .detached (s.detached.length + 1) := by
    rcases (del_summary s).2 with ⟨h, _⟩ | ⟨e, he, _⟩
    · exact h
    · rw [hd] at he; cases he
  have h3 : (DiffsClip.getFocus s).1 = .detached (s.detached.length + 1) := by
    rcases getFocus_handle s with h | h | ⟨e, _, he⟩
    · have hf : (DiffsClip.getFocus s).1
          = (DiffsClip.getLongest "del" (DiffsClip.getLongest "ins" s).2).1 := by
        rw [getFocus_unfold]
        split_ifs with hgt
        · rcases (ins_summary s).2 with ⟨_, hz⟩ | ⟨e, he, _⟩
          · omega
          · rw [hi] at he; cases he
        · rfl
      rw [hf, h2]
    · exact h
    · rcases he with he | he
      · rw [hi] at he; cases he
      · rw [hd] at he; cases he
  refine ⟨h1, h2, h3, ?_, ?_⟩
  · rw [h3, getFocus_snd]
    simp only [DiffsClip.Page.node?]
    rw [List.getElem?_append_right (Nat.le_succ _)]
    simp
  · rw [clip_doc, ← getFocus_mark, h3]
    rfl

/-- The page `docNoP` has no mark: the placeholder is returned and the document is
unchanged. -/
theorem span_clip_without_marks_witness :
    (DiffsClip.getFocus ⟨docNoP, []⟩).1 = .detached 1 ∧
    (DiffsClip.clip ⟨docNoP, []⟩).doc = docNoP :=
  ⟨(span_clip_without_marks ⟨docNoP, []⟩ (by decide) (by decide)).2.2.1,
   (span_clip_without_marks ⟨docNoP, []⟩ (by decide) (by decide)).2.2.2.2⟩

theorem directLengths_eq_map (tag : String) (cs : List Node) :
    directLengths tag cs = (directTexts tag cs).map jsLength := by
  induction cs with
  | nil => rfl
  | cons c cs ih =>
    cases c with
    | textNode s => simpa [directLengths, directTexts] using ih
    | elem a cs' =>
      by_cases ht : a.tag = tag <;> simp [directLengths, directTexts, ht, ih]

/-- C13. The weight of a region is determined by the texts of its direct `ins`
children and of its direct `del` children: two regions, in the same or in different
documents and wherever they lie, whose direct marks carry the same texts in the same
order have the same `count` for both tags and the same `changesLength`. -/
theorem changesLength_depends_on_direct_marks (d d' : Node) (e e' : Path) (a a' : Attrs)
    (cs cs' : List Node)
    (h : d.getAt e = some (.elem a cs)) (h' : d'.getAt e' = some (.elem a' cs'))
    (hi : directTexts "ins" cs = directTexts "ins" cs')
    (hd : directTexts "del" cs = directTexts "del" cs') :
    Clip.count d e "ins" = Clip.count d' e' "ins" ∧
    Clip.count d e "del" = Clip.count d' e' "del" ∧
    Clip.changesLength d e = Clip.changesLength d' e' := by
  refine ⟨?_, ?_, ?_⟩
  · rw [count_eq_sum d e a cs h "ins" matchesSel_ins,
      count_eq_sum d' e' a' cs' h' "ins" matchesSel_ins, directLengths_eq_map,
      directLengths_eq_map, hi]
  · rw [count_eq_sum d e a cs h "del" matchesSel_del,
      count_eq_sum d' e' a' cs' h' "del" matchesSel_del, directLengths_eq_map,
      directLengths_eq_map, hd]
  · rw [changesLength_eq_sum d e a cs h, changesLength_eq_sum d' e' a' cs' h']
    simp only [directLengths_eq_map, hi, hd]

/-- Region C alone and the paragraph of `docMoved` have the same direct marks. -/
theorem changesLength_depends_on_direct_marks_witness :
    Clip.changesLength regionC [] = Clip.changesLength docMoved [1, 0] :=
  (changesLength_depends_on_direct_marks regionC docMoved [] [1, 0] ⟨"p", [], [], false⟩
    ⟨"p", ["lead"], [("color", "red")], true⟩ regionCKids
    [.textNode "intro ", el "em" [el "ins" [.textNode "q"]], el "del" [.textNode "ab"]]
    rfl rfl (by decide) (by decide)).2.2

/-- C14. When some mark matched by `name` has non-empty text, `getLongest(name)`
returns a mark `e` of the document matched by `name`; no matched mark has a longer
text, and every matched mark before `e` in document order has a strictly shorter
one. -/
theorem getLongest_first_longest (name : String) (s : DiffsClip.Page)
    (h : ∃ x ∈ jq s.doc name, textOf s.doc x ≠ "") :
    ∃ e pre post, (DiffsClip.getLongest name s).1 = .attached e ∧
      jq s.doc name = pre ++ e :: post ∧
      (∀ x ∈ jq s.doc name, jsLength (textOf s.doc x) ≤ jsLength (textOf s.doc e)) ∧
      (∀ x ∈ pre, jsLength (textOf s.doc x) < jsLength (textOf s.doc e)) := by
  rcases getLongest_cases name s with ⟨_, h2⟩ | ⟨pre, e, post, hl, hf, _, hpre, hpost⟩
  · obtain ⟨x, hx, hne⟩ := h
    exact absurd ((jsLength_eq_zero _).mp (h2 x hx)) hne
  · refine ⟨e, pre, post, hf, hl, ?_, hpre⟩
    intro x hx
    rw [hl] at hx
    rcases List.mem_append.mp hx with hx | hx
    · exact le_of_lt (hpre x hx)
    · rcases List.mem_cons.mp hx with rfl | hx
      · exact le_refl _
      · exact hpost x hx

/-- Of two `ins` marks of the same greatest length the earlier one is returned. -/
theorem getLongest_first_longest_witness :
    (DiffsClip.getLongest "ins" ⟨docTwoIns, []⟩).1 = .attached [0] ∧
    ∃ e pre post, (DiffsClip.getLongest "ins" ⟨docTwoIns, []⟩).1 = .attached e ∧
      jq docTwoIns "ins" = pre ++ e :: post ∧
      (∀ x ∈ jq docTwoIns "ins", jsLength (textOf docTwoIns x) ≤ jsLength (textOf docTwoIns e)) ∧
      (∀ x ∈ pre, jsLength (textOf docTwoIns x) < jsLength (textOf docTwoIns e)) :=
  ⟨by decide, getLongest_first_longest "ins" ⟨docTwoIns, []⟩ ⟨[0], by decide, by decide⟩⟩

/-! ## Paragraph variant: ancestors of the winner -/

theorem parentPath_concat (q : Path) (i : Nat) : parentPath (q ++ [i]) = some q := by
  cases q with
  | nil => rfl
  | cons c q =>
    have h : (c :: q ++ [i]).dropLast = c :: q := List.dropLast_concat
    simpa [parentPath] using h

theorem parentPath_length (w q : Path) (h : parentPath w = some q) :
    w.length = q.length + 1 := by
  cases w with
  | nil => simp [parentPath] at h
  | cons i p =>
    simp only [parentPath, Option.some.injEq] at h
    rw [← h, List.length_dropLast]
    simp

theorem mem_parent_singleton (w q : Path) : q ∈ parent [w] ↔ parentPath w = some q := by
  simp only [parent, List.filterMap_cons, List.filterMap_nil]
  cases parentPath w with
  | none => simp
  | some x => simp [eq_comm]

theorem attrsAt_clip (d : Node) (q : Path) :
    attrsAt (Clip.clip d) q
      = (attrsAt d q).map
          (Clip.clipAttrs (Clip.getParagraph d) (children d (jq d ".diff") none) q) := by
  rw [clip_eq_mapAttrs, attrsAt_mapAttrs]

/-- C15, as amended. For the winner `w` and an ancestor `q` of it: the immediate
parent of `w` is visible after `clip`; an ancestor two or more levels up is still
hidden when it is a child of a diff container, and keeps the attributes it had
otherwise. -/
theorem clip_reveals_parent_only (d : Node) (w : Path) (h : Clip.getParagraph d = [w])
    (q r : Path) (hw : w = q ++ r) :
    (r.length = 1 → ∃ a, attrsAt (Clip.clip d) q = some a ∧ a.hidden = false) ∧
    (2 ≤ r.length → q ∈ children d (jq d ".diff") none →
      ∃ a, attrsAt (Clip.clip d) q = some a ∧ a.hidden = true) ∧
    (2 ≤ r.length → q ∉ children d (jq d ".diff") none →
      attrsAt (Clip.clip d) q = attrsAt d q) := by
  obtain ⟨a, cs, hwe, _⟩ := mem_select _ d w (getParagraph_mem d w h)
  have hfar : 2 ≤ r.length → q ∉ [w] ∧ q ∉ parent [w] := by
    intro hr
    constructor
    · simp only [List.mem_singleton]
      intro hq
      have := congrArg List.length hq
      rw [hw, List.length_append] at this
      omega
    · rw [mem_parent_singleton]
      intro hp
      have := parentPath_length w q hp
      rw [hw, List.length_append] at this
      omega
  refine ⟨?_, ?_, ?_⟩
  · intro hr
    obtain ⟨i, rfl⟩ := List.length_eq_one.mp hr
    have hp : parentPath w = some q := by rw [hw]; exact parentPath_concat q i
    obtain ⟨b, cs', hb⟩ := parent_is_elem d w q _ hwe hp
    refine ⟨Clip.clipAttrs [w] (children d (jq d ".diff") none) q b, ?_, ?_⟩
    · rw [attrsAt_clip, h]; simp [attrsAt, hb, Node.attrs?]
    · have hm : q ∈ parent [w] := (mem_parent_singleton w q).mpr hp
      simp only [Clip.clipAttrs, hm, if_true]
  · intro hr hq
    obtain ⟨hn1, hn2⟩ := hfar hr
    obtain ⟨b, cs', hb⟩ := mem_children d _ none q hq
    refine ⟨Clip.clipAttrs [w] (children d (jq d ".diff") none) q b, ?_, ?_⟩
    · rw [attrsAt_clip, h]; simp [attrsAt, hb, Node.attrs?]
    · simp only [Clip.clipAttrs, hn1, hn2, hq, if_true, if_false]
  · intro hr hq
    obtain ⟨hn1, hn2⟩ := hfar hr
    rw [attrsAt_clip, h]
    have : Clip.clipAttrs [w] (children d (jq d ".diff") none) q = id := by
      funext b
      simp only [Clip.clipAttrs, hn1, hn2, hq, if_false, id]
    rw [this]
    simp

/-- In `docDeep` the `div` two levels above the winner stays hidden. -/
theorem clip_reveals_parent_only_witness :
    Clip.getParagraph docDeep = [[0, 0, 0, 0]] ∧
    ∃ a, attrsAt (Clip.clip docDeep) [0, 0] = some a ∧ a.hidden = true :=
  ⟨by decide,
    (clip_reveals_parent_only docDeep [0, 0, 0, 0] (by decide) [0, 0] [0, 0] rfl).2.1
      (by decide) (by decide)⟩

/-- C15 as stated fails: in `docDeep` the winner is selected, its ancestor `div` is a
child of the diff container, was visible, and is hidden after `clip`. -/
theorem winner_orphaned_counterexample :
    Clip.getParagraph docDeep = [[0, 0, 0, 0]] ∧
    [0, 0] ∈ children docDeep (jq docDeep ".diff") none ∧
    attrsAt docDeep [0, 0] = some ⟨"div", [], [], false⟩ ∧
    attrsAt (Clip.clip docDeep) [0, 0] = some ⟨"div", [], [], true⟩ := by
  decide

/-! ## Paragraph variant: documents without weight -/

theorem changesLength_nonneg (d : Node) (e : Path) : 0 ≤ Clip.changesLength d e := by
  have h1 : 0 ≤ Clip.count d e "del" := foldl_add_nonneg _ _ 0 (le_refl _)
  have h2 : 0 ≤ Clip.count d e "ins" := foldl_add_nonneg _ _ 0 (le_refl _)
  simp only [Clip.changesLength]; omega

theorem sum_lengths_of_empty (l : List String) (h : ∀ t ∈ l, t = "") :
    (l.map jsLength).sum = 0 := by
  induction l with
  | nil => rfl
  | cons t l ih =>
    have ht := h t (List.mem_cons_self _ _)
    have := ih (fun x hx => h x (List.mem_cons_of_mem _ hx))
    simp [this, (jsLength_eq_zero t).mpr ht]

/-- C16. `getParagraph` returns the empty selection exactly when every paragraph
has weight 0, and otherwise one paragraph of strictly positive weight; in particular
there is no winner when no paragraph has a direct `ins` or `del` child with text. -/
theorem getParagraph_empty_iff_weightless (d : Node) :
    (Clip.getParagraph d = [] ↔ ∀ x ∈ jq d "p", Clip.changesLength d x = 0) ∧
    (∀ w, Clip.getParagraph d = [w] → w ∈ jq d "p" ∧ 0 < Clip.changesLength d w) ∧
    (Clip.getParagraph d = [] ∨ ∃ w, Clip.getParagraph d = [w]) ∧
    ((∀ x ∈ jq d "p", ∀ a cs, d.getAt x = some (.elem a cs) →
        ∀ t ∈ directTexts "ins" cs ++ directTexts "del" cs, t = "") →
      Clip.getParagraph d = []) := by
  have hiff : Clip.getParagraph d = [] ↔ ∀ x ∈ jq d "p", Clip.changesLength d x = 0 := by
    rcases getParagraph_cases d with ⟨h1, h2⟩ | ⟨pre, e, post, hl, hf, hpos, _⟩
    · refine ⟨fun _ x hx => ?_, fun _ => h1⟩
      have := h2 x hx
      have := changesLength_nonneg d x
      omega
    · refine ⟨fun h => ?_, fun h => ?_⟩
      · rw [hf] at h; cases h
      · have := h e (by simp [hl])
        omega
  refine ⟨hiff, ?_, ?_, ?_⟩
  · intro w hw
    rcases getParagraph_cases d with ⟨h1, _⟩ | ⟨pre, e, post, hl, hf, hpos, _⟩
    · rw [h1] at hw; cases hw
    · rw [hf] at hw; cases hw
      exact ⟨by simp [hl], hpos⟩
  · rcases getParagraph_cases d with ⟨h1, _⟩ | ⟨pre, e, post, hl, hf, hpos, _⟩
    · exact Or.inl h1
    · exact Or.inr ⟨e, hf⟩
  · intro h
    rw [hiff]
    intro x hx
    obtain ⟨a, cs, ha, _⟩ := mem_select _ d x hx
    have ht := h x hx a cs ha
    rw [changesLength_eq_sum d x a cs ha, directLengths_eq_map, directLengths_eq_map,
      sum_lengths_of_empty _ (fun t htm => ht t (List.mem_append.mpr (Or.inr htm))),
      sum_lengths_of_empty _ (fun t htm => ht t (List.mem_append.mpr (Or.inl htm)))]
    rfl

/-- The only paragraph of `docPlain` has weight 0, so there is no winner. -/
theorem getParagraph_empty_iff_weightless_witness :
    jq docPlain "p" = [[0, 0]] ∧ Clip.getParagraph docPlain = [] :=
  ⟨by decide, (getParagraph_empty_iff_weightless docPlain).1.mpr (by decide)⟩

/-! ## Span variant: the placeholder -/

theorem getFocus_attached (s : DiffsClip.Page) (p : Path)
    (h : (DiffsClip.getFocus s).1 = .attached p) :
    (p ∈ jq s.doc "ins" ∨ p ∈ jq s.doc "del") ∧ 0 < jsLength (textOf s.doc p) := by
  rw [getFocus_unfold] at h
  split_ifs at h
  · rcases (ins_summary s).2 with ⟨h1, _⟩ | ⟨e, he, h1, _, hpos⟩
    · simp only at h; rw [h1] at h; cases h
    · simp only at h; rw [h1] at h; cases h
      exact ⟨Or.inl he, hpos⟩
  · rcases (del_summary s).2 with ⟨h1, _⟩ | ⟨e, he, h1, _, hpos⟩
    · simp only at h; rw [h1] at h; cases h
    · simp only at h; rw [h1] at h; cases h
      exact ⟨Or.inr he, hpos⟩

theorem getFocus_detached (s : DiffsClip.Page) (i : Nat)
    (h : (DiffsClip.getFocus s).1 = .detached i) :
    ∀ q ∈ jq s.doc "ins" ++ jq s.doc "del", jsLength (textOf s.doc q) = 0 := by
  obtain ⟨hiAll, hi⟩ := ins_summary s
  obtain ⟨hdAll, hd⟩ := del_summary s
  rw [getFocus_unfold] at h
  split_ifs at h with hgt
  · rcases hi with ⟨_, hz⟩ | ⟨e, _, h1, _⟩
    · omega
    · simp only at h; rw [h1] at h; cases h
  · rcases hd with ⟨_, hz⟩ | ⟨e, _, h1, _⟩
    · intro q hq
      rcases List.mem_append.mp hq with hq | hq
      · have := hiAll q hq; omega
      · have := hdAll q hq; omega
    · simp only at h; rw [h1] at h; cases h

/-- C17. `getFocus` returns a detached element exactly when every `ins` and every
`del` mark has empty text; that element is an empty span created by the call. Otherwise
it returns an `ins` or `del` mark of the document with text of positive length. An
element with empty text is never returned, and `clip` leaves its attributes as they
were. -/
theorem getFocus_placeholder_iff_all_empty (s : DiffsClip.Page) :
    ((∃ i, (DiffsClip.getFocus s).1 = .detached i) ↔
      ∀ q ∈ jq s.doc "ins" ++ jq s.doc "del", textOf s.doc q = "") ∧
    (∀ i, (DiffsClip.getFocus s).1 = .detached i →
      s.detached.length ≤ i ∧
      (DiffsClip.getFocus s).2.node? (.detached i) = some DiffsClip.emptySpan) ∧
    (∀ p, (DiffsClip.getFocus s).1 = .attached p →
      (p ∈ jq s.doc "ins" ∨ p ∈ jq s.doc "del") ∧ 0 < jsLength (textOf s.doc p)) ∧
    (∀ q, textOf s.doc q = "" →
      (DiffsClip.getFocus s).1 ≠ .attached q ∧
      attrsAt (DiffsClip.clip s).doc q = attrsAt s.doc q) := by
  have hne : ∀ q, textOf s.doc q = "" → (DiffsClip.getFocus s).1 ≠ .attached q := by
    intro q hq hf
    have := (getFocus_attached s q hf).2
    rw [hq] at this
    exact absurd this (by decide)
  refine ⟨⟨?_, ?_⟩, ?_, getFocus_attached s, ?_⟩
  · rintro ⟨i, hi⟩ q hq
    exact (jsLength_eq_zero _).mp (getFocus_detached s i hi q hq)
  · intro hall
    rcases getFocus_handle s with h | h | ⟨e, h, he⟩
    · exact ⟨_, h⟩
    · exact ⟨_, h⟩
    · exact absurd h (hne e (hall e (List.mem_append.mpr he)))
  · intro i hi
    rw [getFocus_snd]
    simp only [DiffsClip.Page.node?]
    rcases getFocus_handle s with h | h | ⟨e, h, _⟩
    · rw [h] at hi; cases hi
      refine ⟨le_refl _, ?_⟩
      rw [List.getElem?_append_right (le_refl _)]; simp
    · rw [h] at hi; cases hi
      refine ⟨Nat.le_succ _, ?_⟩
      rw [List.getElem?_append_right (Nat.le_succ _)]; simp
    · rw [h] at hi; cases hi
  · intro q hq
    refine ⟨hne q hq, ?_⟩
    rw [clip_doc]
    cases hm : DiffsClip.focusMark s.doc with
    | none => rfl
    | some p =>
      have hp : (DiffsClip.getFocus s).1 = .attached p := by
        rw [← mark?_eq_some, getFocus_mark, hm]
      have hqp : q ≠ p := fun heq => hne q hq (heq ▸ hp)
      simp only [update, attrsAt_mapAttrs, List.mem_singleton, hqp, if_false]
      simp

/-- In `docEmptyIns` the only mark is empty: a placeholder is returned, and the
empty `ins` is neither returned nor changed by `clip`. -/
theorem getFocus_placeholder_iff_all_empty_witness :
    (∃ i, (DiffsClip.getFocus ⟨docEmptyIns, []⟩).1 = .detached i) ∧
    (DiffsClip.getFocus ⟨docEmptyIns, []⟩).1 ≠ .attached [0, 0] ∧
    attrsAt (DiffsClip.clip ⟨docEmptyIns, []⟩).doc [0, 0] = attrsAt docEmptyIns [0, 0] :=
  ⟨(getFocus_placeholder_iff_all_empty ⟨docEmptyIns, []⟩).1.mpr (by decide),
   (getFocus_placeholder_iff_all_empty ⟨docEmptyIns, []⟩).2.2.2 [0, 0] (by decide)⟩

end DiffEngine
